import Mathlib

/-!
Verification development for the makefmt repository (a GNU Make formatter
written in Go).  The Go sources are shallowly embedded: Go strings become
lists of characters, pure functions become Lean functions, the few
imperative loops become fueled structural recursions (the fuel is always
called with a value that provably dominates the loop bound), and slice
indexing becomes total indexing with a default, mirroring the fact that
the Go code only indexes in bounds on the executions we reason about.

Sections:
  1. string helpers mirroring the Go standard library functions used
  2. the AST node model (internal/parser/ast.go)
  3. the parser (internal/parser/parser.go)
  4. the writer (internal/formatter/writer.go)
  5. the formatting rules (internal/rules/format/... and engine)
  6. the diff engine (pkg/diff/diff.go)
  7. theorems about the claims, with helper lemmas
-/

namespace Makefmt

/-- Go strings are modelled as lists of characters. -/
abbrev Str := List Char

/-- One-character string holding a newline. -/
def nl : Str := ("\n").toList

/-- The cutset used by the Go code in strings.TrimRight(s, " \t"). -/
def spTab : Str := (" \t").toList

/-- ASCII part of Go unicode.IsSpace, used by strings.TrimSpace and
strings.Fields.  (Go also treats a few non-ASCII runes as space; the
sources only ever see ASCII whitespace.) -/
def isGoSpace (c : Char) : Bool :=
  c = ' ' ∨ c = '\t' ∨ c = '\n' ∨ c = '\x0b' ∨ c = '\x0c' ∨ c = '\r'

/-- The character class matched by the regexp escape in Go regexp
syntax (RE2): exactly the set containing tab, newline, form feed,
carriage return and space. -/
def isReSpace (c : Char) : Bool :=
  c = '\t' ∨ c = '\n' ∨ c = '\x0c' ∨ c = '\r' ∨ c = ' '

/-- Drop the longest suffix whose characters satisfy p
(strings.TrimRightFunc). -/
def dropTrailing (p : Char → Bool) (s : Str) : Str :=
  (s.reverse.dropWhile p).reverse

/-- strings.TrimRight with an explicit cutset. -/
def trimRightAny (s : Str) (cutset : Str) : Str :=
  dropTrailing (fun c => c ∈ cutset) s

/-- strings.TrimSpace. -/
def trimSpace (s : Str) : Str :=
  dropTrailing isGoSpace (s.dropWhile isGoSpace)

/-- strings.TrimPrefix. -/
def trimPfx (s pat : Str) : Str :=
  if pat.isPrefixOf s then s.drop pat.length else s

/-- strings.Fields: split around runs of whitespace, dropping empties. -/
def goFields (s : Str) : List Str :=
  (s.splitOnP isGoSpace).filter (fun w => w ≠ [])

/-- strings.Index for a substring: first index at which sub occurs,
or -1.  (Byte indices in Go; character indices here — the inputs are
ASCII.) -/
def indexOfSub : Str → Str → Int
  | s, sub =>
    if sub.isPrefixOf s then 0
    else match s with
      | [] => -1
      | _ :: t =>
        let r := indexOfSub t sub
        if r < 0 then -1 else r + 1

/-- strings.Contains. -/
def containsSub (s sub : Str) : Bool :=
  0 ≤ indexOfSub s sub

/-- strings.IndexAny: first index of any character drawn from chars,
or -1. -/
def indexAny (s chars : Str) : Int :=
  match s.findIdx? (fun c => c ∈ chars) with
  | some i => (i : Int)
  | none => -1

/-- strings.ContainsAny. -/
def containsAny (s chars : Str) : Bool :=
  s.any (fun c => c ∈ chars)

/-- strings.Split(s, "\n"): pieces between newline separators (an
empty input gives one empty piece). -/
def splitOnNL : Str → List Str
  | [] => [[]]
  | c :: rest =>
    let r := splitOnNL rest
    if c = '\n' then [] :: r
    else match r with
      | [] => [[c]]
      | h :: t => (c :: h) :: t

/-- strings.Join(parts, sep). -/
def joinSep (sep : Str) : List Str → Str
  | [] => []
  | [x] => x
  | x :: y :: rest => x ++ sep ++ joinSep sep (y :: rest)

/-- Indexing with a default character, for Go expressions like s[i]
that are only evaluated in bounds. -/
def charAt (s : Str) (i : Nat) : Char :=
  s.getD i ' '

/-! ## 2. Node model (internal/parser/ast.go) -/

/-- NodeType classifies a parsed Makefile line. -/
inductive NodeType where
  | NodeComment
  | NodeSectionHeader
  | NodeBannerComment
  | NodeBlankLine
  | NodeAssignment
  | NodeRule
  | NodeRecipe
  | NodeConditional
  | NodeInclude
  | NodeDirective
  | NodeRaw
deriving DecidableEq, Repr

export NodeType (NodeComment NodeSectionHeader NodeBannerComment NodeBlankLine
  NodeAssignment NodeRule NodeRecipe NodeConditional NodeInclude NodeDirective NodeRaw)

/-- NodeFields holds type-specific parsed data for a Node.  The field
Prefix of the Go struct is called prefixStr here. -/
structure NodeFields where
  varName : Str := []
  assignOp : Str := []
  varValue : Str := []
  targets : List Str := []
  prerequisites : List Str := []
  orderOnly : List Str := []
  inlineHelp : Str := []
  directive : Str := []
  condition : Str := []
  includeType : Str := []
  paths : List Str := []
  text : Str := []
  inline : Bool := false
  prefixStr : Str := []
deriving DecidableEq, Repr

/-- Node represents a single parsed element in a Makefile AST. -/
inductive Node where
  | mk (type : NodeType) (line : Nat) (raw : Str) (children : List Node)
      (fields : NodeFields)

def Node.type : Node → NodeType
  | .mk t _ _ _ _ => t

def Node.line : Node → Nat
  | .mk _ l _ _ _ => l

def Node.raw : Node → Str
  | .mk _ _ r _ _ => r

def Node.children : Node → List Node
  | .mk _ _ _ cs _ => cs

def Node.fields : Node → NodeFields
  | .mk _ _ _ _ f => f

/-- Build a node the way the parser does: type, raw text and fields;
the line number is filled in afterwards, children start empty. -/
def mkNode (t : NodeType) (raw : Str) (f : NodeFields) : Node :=
  .mk t 0 raw [] f

def Node.setLine : Node → Nat → Node
  | .mk t _ r cs f, l => .mk t l r cs f

def Node.setRaw : Node → Str → Node
  | .mk t l _ cs f, r => .mk t l r cs f

def Node.setType : Node → NodeType → Node
  | .mk _ l r cs f, t => .mk t l r cs f

def Node.addChild : Node → Node → Node
  | .mk t l r cs f, c => .mk t l r (cs ++ [c]) f

def Node.setFieldsText : Node → Str → Node
  | .mk t l r cs f, s => .mk t l r cs { f with text := s }

def Node.setFieldsVarName : Node → Str → Node
  | .mk t l r cs f, s => .mk t l r cs { f with varName := s }

/-- Node.Clone deep-copies a node in Go; on immutable values the deep
copy is the value itself. -/
def Node.clone (n : Node) : Node := n

mutual
/-- Boolean structural equality for nodes (used to build DecidableEq,
which the deriving handler cannot produce for nested inductives). -/
def nodeBEq : Node → Node → Bool
  | .mk t1 l1 r1 c1 f1, .mk t2 l2 r2 c2 f2 =>
    t1 = t2 && l1 = l2 && r1 = r2 && nodeListBEq c1 c2 && f1 = f2
def nodeListBEq : List Node → List Node → Bool
  | [], [] => true
  | a :: as, b :: bs => nodeBEq a b && nodeListBEq as bs
  | _, _ => false
end

mutual
theorem nodeBEq_iff : ∀ a b : Node, nodeBEq a b = true ↔ a = b
  | .mk t1 l1 r1 c1 f1, .mk t2 l2 r2 c2 f2 => by
    simp only [nodeBEq, Bool.and_eq_true, decide_eq_true_eq, Node.mk.injEq]
    constructor
    · rintro ⟨⟨⟨⟨h1, h2⟩, h3⟩, h4⟩, h5⟩
      exact ⟨h1, h2, h3, (nodeListBEq_iff c1 c2).mp h4, h5⟩
    · rintro ⟨h1, h2, h3, h4, h5⟩
      exact ⟨⟨⟨⟨h1, h2⟩, h3⟩, (nodeListBEq_iff c1 c2).mpr h4⟩, h5⟩
theorem nodeListBEq_iff : ∀ a b : List Node, nodeListBEq a b = true ↔ a = b
  | [], [] => by simp [nodeListBEq]
  | [], _ :: _ => by simp [nodeListBEq]
  | _ :: _, [] => by simp [nodeListBEq]
  | a :: as, b :: bs => by
    simp only [nodeListBEq, Bool.and_eq_true, List.cons.injEq]
    rw [nodeBEq_iff a b, nodeListBEq_iff as bs]
end

instance : DecidableEq Node := fun a b =>
  decidable_of_iff (nodeBEq a b = true) (nodeBEq_iff a b)

/-! ## 3. Parser (internal/parser/parser.go) -/

/-- Assignment operator patterns, ordered by length (longest first to
avoid partial matches). -/
def assignOps : List Str :=
  [("::=").toList, ("!=").toList, ("?=").toList, ("+=").toList,
   (":=").toList, ("=").toList]

/-- Conditional directive keywords.  (A Go map; matching keywords are
mutually exclusive on any line, so a list is an equivalent model.) -/
def conditionalKeywords : List Str :=
  [("ifeq").toList, ("ifneq").toList, ("ifdef").toList,
   ("ifndef").toList, ("else").toList, ("endif").toList]

/-- Include directive keywords. -/
def includeKeywords : List Str :=
  [("include").toList, ("-include").toList, ("sinclude").toList]

/-- Directive keywords that start a line (non-conditional, non-include). -/
def directiveKeywords : List Str :=
  [(".PHONY").toList, (".DEFAULT_GOAL").toList, (".SUFFIXES").toList,
   (".DELETE_ON_ERROR").toList, (".SECONDARY").toList, (".PRECIOUS").toList,
   (".INTERMEDIATE").toList, (".NOTPARALLEL").toList, (".ONESHELL").toList,
   (".POSIX").toList, (".SILENT").toList, (".IGNORE").toList,
   (".EXPORT_ALL_VARIABLES").toList, ("export").toList, ("unexport").toList,
   ("vpath").toList, ("override").toList]

/-- First alternative of the banner regexp: a nonempty line of only
number-sign characters. -/
def bannerAlt1 (s : Str) : Bool :=
  s ≠ [] ∧ s.all (fun c => c = '#')

/-- Second alternative of the banner regexp: a number sign, optional
regexp whitespace, at least three characters drawn from equals, hyphen
and number sign, optional whitespace, end of line. -/
def bannerAlt2 (s : Str) : Bool :=
  match s with
  | '#' :: t =>
    let afterWs := t.dropWhile isReSpace
    let run := afterWs.takeWhile (fun c => c = '=' ∨ c = '-' ∨ c = '#')
    run.length ≥ 3 ∧ (afterWs.drop run.length).all isReSpace
  | _ => false

/-- Third alternative of the banner regexp: two or more number signs,
one or more whitespace, anything not containing a newline, one or more
whitespace, two or more number signs.  The leading and trailing runs
of number signs are forced to be maximal (a shorter choice would abut
a number sign where whitespace is required), so the match is decided
deterministically. -/
def bannerAlt3 (s : Str) : Bool :=
  let j := (s.takeWhile (fun c => c = '#')).length
  let k := (s.reverse.takeWhile (fun c => c = '#')).length
  let between := (s.drop j).take (s.length - (j + k))
  j ≥ 2 ∧ k ≥ 2 ∧ between.length ≥ 2 ∧
    isReSpace (charAt between 0) ∧
    isReSpace (charAt between (between.length - 1)) ∧
    ¬ (dropTrailing isReSpace (between.dropWhile isReSpace)).contains '\n'

/-- bannerRe.MatchString. -/
def bannerMatch (s : Str) : Bool :=
  bannerAlt1 s ∨ bannerAlt2 s ∨ bannerAlt3 s

/-- isBannerComment from parser.go. -/
def isBannerComment (trimmed : Str) : Bool :=
  if ¬ (("#").toList.isPrefixOf trimmed) then false
  else if trimmed = ("#").toList then false
  else bannerMatch trimmed

/-- parseComment from parser.go. -/
def parseComment (trimmed raw : Str) : Node :=
  let prefixStr :=
    if ("##").toList.isPrefixOf trimmed ∧ ¬ (("##@").toList.isPrefixOf trimmed)
    then ("##").toList else ("#").toList
  let text := trimSpace (trimPfx trimmed prefixStr)
  mkNode NodeComment raw { text := text, prefixStr := prefixStr }

/-- Keyword match used by tryConditional and tryInclude: the trimmed
line equals the keyword or extends it with a space or tab. -/
def keywordMatches (trimmed kw : Str) : Bool :=
  trimmed = kw ∨ (kw ++ [' ']).isPrefixOf trimmed ∨ (kw ++ ['\t']).isPrefixOf trimmed

/-- tryConditional from parser.go. -/
def tryConditional (trimmed raw : Str) : Option Node :=
  match conditionalKeywords.find? (keywordMatches trimmed) with
  | none => none
  | some kw =>
    let condition :=
      if kw.length < trimmed.length then trimSpace (trimmed.drop kw.length) else []
    some (mkNode NodeConditional raw { directive := kw, condition := condition })

/-- tryInclude from parser.go. -/
def tryInclude (trimmed raw : Str) : Option Node :=
  match includeKeywords.find? (keywordMatches trimmed) with
  | none => none
  | some kw =>
    let pathStr :=
      if kw.length < trimmed.length then trimSpace (trimmed.drop kw.length) else []
    let paths := if pathStr ≠ [] then goFields pathStr else []
    some (mkNode NodeInclude raw { includeType := kw, paths := paths })

/-- tryDirective from parser.go. -/
def tryDirective (trimmed raw : Str) : Option Node :=
  let firstWord :=
    match indexAny trimmed (" \t:").toList with
    | i => if i ≥ 0 then trimmed.take i.toNat else trimmed
  if firstWord ∈ directiveKeywords then
    some (mkNode NodeDirective raw { text := trimmed })
  else none

/-- The body of one iteration of the operator loop in tryAssignment;
a `none` result is the loop's `continue`. -/
def tryAssignOp (trimmed raw op : Str) : Option Node :=
  let idx := indexOfSub trimmed op
  if idx < 0 then none
  else
    let i := idx.toNat
    let prev := charAt trimmed (i - 1)
    if op = ("=").toList ∧ i > 0 ∧
        (prev = ':' ∨ prev = '?' ∨ prev = '+' ∨ prev = '!') then none
    else if op = (":=").toList ∧ i > 0 ∧ prev = ':' then none
    else
      let varName0 := trimSpace (trimmed.take i)
      if varName0 = [] then none
      else
        match (if containsAny varName0 spTab then
                 (let parts := goFields varName0
                  if parts.length = 2 ∧ parts.headI = ("override").toList then
                    some (("override ").toList ++ parts.getD 1 [])
                  else none)
               else some varName0) with
        | none => none
        | some varName =>
          if varName.contains ':' ∧ op = ("=").toList then none
          else
            let afterOp := i + op.length
            let varValue :=
              if afterOp < trimmed.length then trimSpace (trimmed.drop afterOp) else []
            some (mkNode NodeAssignment raw
              { varName := varName, assignOp := op, varValue := varValue })

/-- The operator loop of tryAssignment. -/
def tryAssignLoop (trimmed raw : Str) : List Str → Option Node
  | [] => none
  | op :: rest =>
    match tryAssignOp trimmed raw op with
    | some n => some n
    | none => tryAssignLoop trimmed raw rest

/-- tryAssignment from parser.go: first operator (in the fixed priority
order) whose iteration does not `continue`. -/
def tryAssignment (trimmed raw : Str) : Option Node :=
  tryAssignLoop trimmed raw assignOps

/-- findRuleColon from parser.go. -/
def findRuleColon (line : Str) : Int :=
  if assignOps.any (fun op => containsSub line op) then -1
  else match line.findIdx? (fun c => c = ':') with
    | some i => (i : Int)
    | none => -1

/-- tryRule from parser.go. -/
def tryRule (trimmed raw : Str) : Option Node :=
  let colonIdx := findRuleColon trimmed
  if colonIdx < 0 then none
  else
    let ci := colonIdx.toNat
    let targetStr := trimSpace (trimmed.take ci)
    if targetStr = [] then none
    else
      let targets := goFields targetStr
      let rest0 :=
        if ci + 1 < trimmed.length then trimSpace (trimmed.drop (ci + 1)) else []
      let helpIdx := indexOfSub rest0 ("##").toList
      let inlineHelp :=
        if helpIdx ≥ 0 then trimSpace (rest0.drop (helpIdx.toNat + 2)) else []
      let rest :=
        if helpIdx ≥ 0 then trimSpace (rest0.take helpIdx.toNat) else rest0
      let pipeIdx := indexOfSub rest ("|").toList
      let prerequisites :=
        if pipeIdx ≥ 0 then
          (let prereqStr := trimSpace (rest.take pipeIdx.toNat)
           if prereqStr ≠ [] then goFields prereqStr else [])
        else if rest ≠ [] then goFields rest else []
      let orderOnly :=
        if pipeIdx ≥ 0 then
          (let orderStr := trimSpace (rest.drop (pipeIdx.toNat + 1))
           if orderStr ≠ [] then goFields orderStr else [])
        else []
      some (mkNode NodeRule raw
        { targets := targets, prerequisites := prerequisites,
          orderOnly := orderOnly, inlineHelp := inlineHelp })

/-- classifyLine from parser.go.  The second component reports that the
line opened a define block (the Go code records this in parser state). -/
def classifyLine (inRule : Bool) (joined raw : Str) : Node × Bool :=
  let trimmed := trimSpace joined
  if trimmed = [] then
    (mkNode NodeBlankLine raw {}, false)
  else if ("define ").toList.isPrefixOf trimmed ∨ trimmed = ("define").toList then
    (mkNode NodeRaw raw {}, true)
  else if ("##@").toList.isPrefixOf trimmed then
    (mkNode NodeSectionHeader raw
      { text := trimSpace (trimmed.drop 3), prefixStr := ("##@").toList }, false)
  else if isBannerComment trimmed then
    (mkNode NodeBannerComment raw { text := trimmed }, false)
  else if ("#").toList.isPrefixOf trimmed then
    (parseComment trimmed raw, false)
  else if ("\t").toList.isPrefixOf joined ∧ inRule then
    (mkNode NodeRecipe raw { text := trimPfx joined ("\t").toList }, false)
  else match tryConditional trimmed raw with
  | some n => (n, false)
  | none => match tryInclude trimmed raw with
  | some n => (n, false)
  | none => match tryDirective trimmed raw with
  | some n => (n, false)
  | none => match tryAssignment trimmed raw with
  | some n => (n, false)
  | none => match tryRule trimmed raw with
  | some n => (n, false)
  | none => (mkNode NodeRaw raw {}, false)

/-- splitLines from parser.go (strings.Split, dropping one trailing
empty piece produced by a trailing newline). -/
def splitLines (src : Str) : List Str :=
  if src = [] then []
  else
    let lines := splitOnNL src
    if lines.length > 0 ∧ lines.getLast? = some [] then lines.dropLast else lines

/-- hasContinuation from parser.go (single physical line). -/
def hasContinuation (line : Str) : Bool :=
  ("\\").toList.isSuffixOf (trimRightAny line spTab)

/-- joinContinuations from parser.go, applied at the head of the given
line list: the joined logical line and the number of lines consumed. -/
def joinContinuations (lines : List Str) : Str × Nat :=
  match lines with
  | [] => ([], 0)
  | l :: _ =>
    if ¬ hasContinuation l then (l, 1)
    else
      let contPart := lines.takeWhile hasContinuation
      let parts := contPart.map (fun ln => (trimRightAny ln spTab).dropLast)
      match lines.drop contPart.length with
      | [] => (joinSep [' '] parts, contPart.length)
      | f :: _ => (joinSep [' '] (parts ++ [f]), contPart.length + 1)

/-- The scan in findRuleParent, over the reversed node list: attach the
child to the most recent rule, skipping recipe, comment, banner, header
and blank nodes; stop (returning none) at anything else. -/
def attachRev : List Node → Node → Option (List Node)
  | [], _ => none
  | n :: rest, child =>
    if n.type = NodeRule then some (n.addChild child :: rest)
    else match n.type with
      | NodeRecipe | NodeComment | NodeBannerComment
      | NodeSectionHeader | NodeBlankLine =>
        (attachRev rest child).map (fun acc => n :: acc)
      | _ => none

/-- findRuleParent combined with the child attachment done by addNode. -/
def attachToParent (acc : List Node) (child : Node) : Option (List Node) :=
  (attachRev acc.reverse child).map List.reverse

/-- addNode from parser.go: appends a node, managing the in-rule state
and recipe parent-child relationships. -/
def addNode (acc : List Node) (inRule : Bool) (node : Node) : List Node × Bool :=
  match node.type with
  | NodeRule => (acc ++ [node], true)
  | NodeRecipe =>
    if acc ≠ [] then
      match attachToParent acc node with
      | some acc2 => (acc2, inRule)
      | none => (acc ++ [node.setType NodeRaw], inRule)
    else (acc ++ [node.setType NodeRaw], inRule)
  | NodeBlankLine => (acc ++ [node], false)
  | NodeComment => (acc ++ [node], inRule)
  | NodeSectionHeader => (acc ++ [node], inRule)
  | NodeBannerComment => (acc ++ [node], inRule)
  | _ => (acc ++ [node], false)

/-- handleDefineBlock body: the lines consumed after the define line,
up to and including the terminating endef (or everything, if the block
is unterminated). -/
def takeUpToEndef : List Str → List Str
  | [] => []
  | l :: rest =>
    if trimSpace l = ("endef").toList then [l]
    else l :: takeUpToEndef rest

/-- The parser main loop.  Fuel is one unit per source line; each step
consumes at least one line, so fuel = number of lines suffices (proved
where needed). -/
def parseLoop (fuel : Nat) (acc : List Node) (inRule : Bool) (lineNum : Nat)
    (lines : List Str) : List Node :=
  match fuel, lines with
  | _, [] => acc
  | 0, _ => acc
  | fuel + 1, l :: rest =>
    let jc := joinContinuations (l :: rest)
    let joined := jc.1
    let count := jc.2
    let raw := joinSep nl ((l :: rest).take count)
    let cl := classifyLine inRule joined raw
    let node := cl.1.setLine (lineNum + 1)
    if cl.2 then
      let body := takeUpToEndef (rest.drop (count - 1))
      let nodeD := node.setRaw (joinSep nl (raw :: body))
      let consumed := count + body.length
      parseLoop fuel (acc ++ [nodeD]) false (lineNum + consumed)
        ((l :: rest).drop consumed)
    else
      let an := addNode acc inRule node
      parseLoop fuel an.1 an.2 (lineNum + count) ((l :: rest).drop count)

/-- Parse from parser.go: convert Makefile source text into an AST. -/
def Parse (src : Str) : List Node :=
  let lines := splitLines src
  parseLoop lines.length [] false 0 lines

/-! ## 4. Writer (internal/formatter/writer.go) -/

/-- writeComment / writeSectionHeader: prefix, then a space and the
text when the text is nonempty. -/
def writeCommentF (f : NodeFields) : Str :=
  if f.text ≠ [] then f.prefixStr ++ [' '] ++ f.text else f.prefixStr

/-- writeAssignment. -/
def writeAssignmentF (f : NodeFields) : Str :=
  f.varName ++ [' '] ++ f.assignOp ++
    (if f.varValue ≠ [] then [' '] ++ f.varValue else [])

/-- writeRule. -/
def writeRuleF (f : NodeFields) : Str :=
  joinSep [' '] f.targets ++ [':'] ++
    (if f.prerequisites.length > 0 then [' '] ++ joinSep [' '] f.prerequisites else []) ++
    (if f.orderOnly.length > 0 then (" | ").toList ++ joinSep [' '] f.orderOnly else []) ++
    (if f.inlineHelp ≠ [] then (" ## ").toList ++ f.inlineHelp else [])

/-- writeConditional. -/
def writeConditionalF (f : NodeFields) : Str :=
  f.directive ++ (if f.condition ≠ [] then [' '] ++ f.condition else [])

/-- writeInclude. -/
def writeIncludeF (f : NodeFields) : Str :=
  f.includeType ++ (if f.paths.length > 0 then [' '] ++ joinSep [' '] f.paths else [])

/-- The field-reconstruction switch of writeNode (the path taken when
Raw is empty). -/
def reconstructFields (t : NodeType) (f : NodeFields) : Str :=
  match t with
  | NodeBlankLine => []
  | NodeComment => writeCommentF f
  | NodeSectionHeader => writeCommentF f
  | NodeBannerComment => f.text
  | NodeAssignment => writeAssignmentF f
  | NodeRule => writeRuleF f
  | NodeRecipe => '\t' :: f.text
  | NodeConditional => writeConditionalF f
  | NodeInclude => writeIncludeF f
  | NodeDirective => f.text
  | NodeRaw => f.text

mutual
/-- writeNode from writer.go: Raw verbatim when nonempty, else the
kind-specific reconstruction; children each on their own new line. -/
def writeNodeText : Node → Str
  | .mk t _ raw cs f =>
    if raw ≠ [] then raw ++ writeChildrenText cs
    else reconstructFields t f ++ writeChildrenText cs
/-- writeChildren from writer.go. -/
def writeChildrenText : List Node → Str
  | [] => []
  | c :: rest => (nl ++ writeNodeText c) ++ writeChildrenText rest
end

/-- Write from writer.go: one line terminator appended per node. -/
def Write : List Node → Str
  | [] => []
  | n :: rest => writeNodeText n ++ nl ++ Write rest

/-! ## 5. Configuration and formatting rules -/

/-- FormatterConfig from internal/config/config.go.  The Go field
RecipePrefix is called recipePfx here. -/
structure FormatterConfig where
  indentStyle : Str := ("tab").toList
  tabWidth : Int := 4
  maxBlankLines : Int := 2
  insertFinalNewline : Bool := true
  trimTrailingWhitespace : Bool := true
  alignAssignments : Bool := true
  assignmentSpacing : Str := ("space").toList
  sortPrerequisites : Bool := false
  alignBackslashContinuations : Bool := true
  backslashColumn : Int := 79
  spaceAfterComment : Bool := true
  indentConditionals : Bool := true
  conditionalIndent : Int := 2
  recipePfx : Str := ("preserve").toList
deriving DecidableEq, Repr

/-- DefaultConfig().Formatter from config.go. -/
def defaultConfig : FormatterConfig := {}

/-- A formatting rule, as a transform (the Format method of the Go
FormatRule interface). -/
abbrev FormatRuleT := FormatterConfig → List Node → List Node

/-! ### trim_trailing_whitespace (trailing_whitespace.go) -/

/-- trimRawLines: trim trailing whitespace from each line of a
potentially multi-line Raw field. -/
def trimRawLines (raw : Str) : Str :=
  joinSep nl ((splitOnNL raw).map (fun line => trimRightAny line spTab))

def trimFields (f : NodeFields) : NodeFields :=
  { f with text := trimRightAny f.text spTab,
           varValue := trimRightAny f.varValue spTab,
           inlineHelp := trimRightAny f.inlineHelp spTab,
           condition := trimRightAny f.condition spTab }

mutual
/-- trimNode from trailing_whitespace.go (the Go clone followed by
in-place edits of the clone, collapsed into one value). -/
def trimNode : Node → Node
  | .mk t l raw cs f =>
    .mk t l (if raw ≠ [] then trimRawLines raw else raw) (trimNodes cs) (trimFields f)
def trimNodes : List Node → List Node
  | [] => []
  | c :: rest => trimNode c :: trimNodes rest
end

/-- TrailingWhitespace.Format. -/
def TrailingWhitespaceFormat : FormatRuleT := fun cfg nodes =>
  if ¬ cfg.trimTrailingWhitespace then nodes
  else nodes.map trimNode

/-! ### insert_final_newline (final_newline.go) -/

/-- FinalNewline.Format: remove trailing blank-line nodes. -/
def FinalNewlineFormat : FormatRuleT := fun cfg nodes =>
  if ¬ cfg.insertFinalNewline then nodes
  else if nodes = [] then nodes
  else dropTrailing2 nodes
where
  /-- the shrink loop: drop blank-line nodes from the end. -/
  dropTrailing2 (ns : List Node) : List Node :=
    (ns.reverse.dropWhile (fun n => n.type = NodeBlankLine)).reverse

/-! ### max_blank_lines (blank_lines.go) -/

/-- The run-counting loop of BlankLines.Format. -/
def blankLinesGo (maxB : Int) (blankCount : Nat) : List Node → List Node
  | [] => []
  | n :: rest =>
    if n.type = NodeBlankLine then
      let c := blankCount + 1
      if (c : Int) ≤ maxB then n :: blankLinesGo maxB c rest
      else blankLinesGo maxB c rest
    else n :: blankLinesGo maxB 0 rest

/-- BlankLines.Format. -/
def BlankLinesFormat : FormatRuleT := fun cfg nodes =>
  if cfg.maxBlankLines < 0 then nodes
  else blankLinesGo cfg.maxBlankLines 0 nodes

/-! ### assignment_spacing (assignment_spacing.go) -/

/-- normalizeAssignment. -/
def normalizeAssignment (n : Node) (mode : Str) : Node :=
  let clone := n.clone
  if mode = ("space").toList then clone.setRaw []
  else if mode = ("no_space").toList then
    clone.setRaw (clone.fields.varName ++ clone.fields.assignOp ++
      (if clone.fields.varValue ≠ [] then clone.fields.varValue else []))
  else clone

/-- AssignmentSpacing.Format. -/
def AssignmentSpacingFormat : FormatRuleT := fun cfg nodes =>
  if cfg.assignmentSpacing = ("preserve").toList then nodes
  else nodes.map (fun n =>
    if n.type = NodeAssignment then normalizeAssignment n cfg.assignmentSpacing else n)

/-! ### align_backslash_continuations (backslash_align.go) -/

/-- hasContinuation from backslash_align.go (over a whole Raw field,
distinct from the parser function of the same name). -/
def rawHasContinuation (raw : Str) : Bool :=
  (splitOnNL raw).any (fun line => ("\\").toList.isSuffixOf (trimRightAny line spTab))

/-- Whether one physical line ends in a trailing backslash, and its
content with the backslash and trailing whitespace removed. -/
def contContent (line : Str) : Str :=
  trimRightAny ((trimRightAny line spTab).dropLast) spTab

/-- alignBackslashes from backslash_align.go. -/
def alignBackslashes (n : Node) (backslashCol : Int) : Node :=
  let clone := n.clone
  let lines := splitOnNL clone.raw
  let contLines := lines.filter (fun l => ("\\").toList.isSuffixOf (trimRightAny l spTab))
  let maxContentWidth := (contLines.map (fun l => (contContent l).length)).foldr max 0
  let targetCol : Int := if backslashCol = 0 then (maxContentWidth : Int) + 2 else backslashCol
  let lines2 := lines.map (fun line =>
    if ("\\").toList.isSuffixOf (trimRightAny line spTab) then
      let content := contContent line
      let padWidth := max (targetCol - 1 - (content.length : Int)) 1
      content ++ List.replicate padWidth.toNat ' ' ++ [ '\\' ]
    else line)
  clone.setRaw (joinSep nl lines2)

/-- BackslashAlign.Format. -/
def BackslashAlignFormat : FormatRuleT := fun cfg nodes =>
  if ¬ cfg.alignBackslashContinuations then nodes
  else nodes.map (fun n =>
    if ¬ rawHasContinuation n.raw then n
    else alignBackslashes n cfg.backslashColumn)

/-! ### space_after_comment (comment_spacing.go) -/

/-- shouldNormalize: skip non-single-hash prefixes, shebangs and empty
comments. -/
def shouldNormalize (n : Node) : Bool :=
  if n.fields.prefixStr ≠ ("#").toList then false
  else
    let raw := trimSpace n.raw
    if ("#!").toList.isPrefixOf raw then false
    else if raw = ("#").toList then false
    else true

/-- normalizeComment: ensure a single space after the number sign. -/
def normalizeComment (n : Node) : Node :=
  let raw := trimSpace n.raw
  if raw.length > 1 ∧ charAt raw 1 = ' ' then n
  else
    let clone := n.clone
    (clone.setRaw (("# ").toList ++ raw.drop 1)).setFieldsText (trimSpace (raw.drop 1))

/-- CommentSpacing.Format. -/
def CommentSpacingFormat : FormatRuleT := fun cfg nodes =>
  if ¬ cfg.spaceAfterComment then nodes
  else nodes.map (fun n =>
    if n.type = NodeComment ∧ shouldNormalize n then normalizeComment n else n)

/-! ### indent_conditionals (conditional_indent.go) -/

/-- reconstructRaw from conditional_indent.go (the rule's own
field-to-text fallback, independent of the writer). -/
def reconstructRaw (n : Node) : Str :=
  match n.type with
  | NodeAssignment =>
    n.fields.varName ++ [' '] ++ n.fields.assignOp ++
      (if n.fields.varValue ≠ [] then [' '] ++ n.fields.varValue else [])
  | NodeComment =>
    if n.fields.text ≠ [] then n.fields.prefixStr ++ [' '] ++ n.fields.text
    else n.fields.prefixStr
  | NodeConditional =>
    if n.fields.condition ≠ [] then n.fields.directive ++ [' '] ++ n.fields.condition
    else n.fields.directive
  | NodeInclude =>
    if n.fields.paths.length > 0 then
      n.fields.includeType ++ [' '] ++ joinSep [' '] n.fields.paths
    else n.fields.includeType
  | NodeRule =>
    joinSep [' '] n.fields.targets ++ [':'] ++
      (if n.fields.prerequisites.length > 0 then
        [' '] ++ joinSep [' '] n.fields.prerequisites else []) ++
      (if n.fields.inlineHelp ≠ [] then (" ## ").toList ++ n.fields.inlineHelp else [])
  | NodeBlankLine => []
  | _ => n.fields.text

/-- applyIndent from conditional_indent.go. -/
def applyIndent (n : Node) (indent : Str) (level : Int) : Node :=
  if level ≤ 0 then n
  else
    let prefixPad := (List.replicate level.toNat indent).flatten
    let clone := n.clone
    let raw := if clone.raw = [] then reconstructRaw clone else clone.raw
    clone.setRaw (prefixPad ++ raw)

/-- isConditionalOpen. -/
def isConditionalOpen (directive : Str) : Bool :=
  directive = ("ifeq").toList ∨ directive = ("ifneq").toList ∨
  directive = ("ifdef").toList ∨ directive = ("ifndef").toList

/-- The walk of indentConditionals. -/
def indentConditionalsGo (indent : Str) (level : Int) : List Node → List Node
  | [] => []
  | n :: rest =>
    if n.type = NodeConditional ∧ isConditionalOpen n.fields.directive then
      applyIndent n indent level :: indentConditionalsGo indent (level + 1) rest
    else if n.type = NodeConditional ∧ n.fields.directive = ("else").toList then
      applyIndent n indent (level - 1) :: indentConditionalsGo indent level rest
    else if n.type = NodeConditional ∧ n.fields.directive = ("endif").toList then
      let level2 := if level - 1 < 0 then 0 else level - 1
      applyIndent n indent level2 :: indentConditionalsGo indent level2 rest
    else
      (if level > 0 then applyIndent n indent level else n) ::
        indentConditionalsGo indent level rest

/-- ConditionalIndent.Format. -/
def ConditionalIndentFormat : FormatRuleT := fun cfg nodes =>
  if ¬ cfg.indentConditionals ∨ cfg.conditionalIndent ≤ 0 then nodes
  else indentConditionalsGo (List.replicate cfg.conditionalIndent.toNat ' ') 0 nodes

/-! ### preserve_banner_comments (banner_preserve.go) -/

/-- BannerPreserve.Format: always-active no-op passthrough. -/
def BannerPreserveFormat : FormatRuleT := fun _ nodes => nodes

/-! ### align_assignments (align_assignments.go) -/

/-- alignGroup: pad every variable name of the group (measured after
stripping trailing spaces) to the longest bare name. -/
def alignGroup (group : List Node) (spacingMode : Str) : List Node :=
  let maxLen := (group.map (fun n => (trimRightAny n.fields.varName [' ']).length)).foldr max 0
  group.map (fun n =>
    let clone := n.clone
    let name := trimRightAny clone.fields.varName [' ']
    let padded := name ++ List.replicate (maxLen - name.length) ' '
    if spacingMode = ("no_space").toList then
      clone.setRaw (padded ++ clone.fields.assignOp ++
        (if clone.fields.varValue ≠ [] then clone.fields.varValue else []))
    else
      (clone.setFieldsVarName padded).setRaw [])

/-- The group-scanning loop of AlignAssignments.Format.  Fuel is one
unit per node; every step consumes at least one node. -/
def alignAssignmentsGo (spacing : Str) : Nat → List Node → List Node
  | 0, ns => ns
  | _, [] => []
  | fuel + 1, n :: rest =>
    if n.type ≠ NodeAssignment then n :: alignAssignmentsGo spacing fuel rest
    else
      let runTail := rest.takeWhile (fun m => m.type = NodeAssignment)
      let run := n :: runTail
      let rest2 := rest.drop runTail.length
      (if run.length > 1 then alignGroup run spacing else run) ++
        alignAssignmentsGo spacing fuel rest2

/-- AlignAssignments.Format. -/
def AlignAssignmentsFormat : FormatRuleT := fun cfg nodes =>
  if ¬ cfg.alignAssignments then nodes
  else alignAssignmentsGo cfg.assignmentSpacing nodes.length nodes

/-! ### Engine and registry -/

/-- Run from internal/formatter/engine.go: apply each rule in order. -/
def Run (nodes : List Node) (cfg : FormatterConfig) (rules : List FormatRuleT) :
    List Node :=
  rules.foldl (fun result rule => rule cfg result) nodes

/-- The rule registry order from internal/rules/registry.go init(). -/
def registryRules : List FormatRuleT :=
  [TrailingWhitespaceFormat, FinalNewlineFormat, BlankLinesFormat,
   AssignmentSpacingFormat, BackslashAlignFormat, CommentSpacingFormat,
   ConditionalIndentFormat, BannerPreserveFormat]

/-- formatInput from internal/runner/runner.go: parse, run the
registered rules, write. -/
def formatInput (cfg : FormatterConfig) (input : Str) : Str :=
  Write (Run (Parse input) cfg registryRules)

/-! ## 6. Diff engine (pkg/diff/diff.go) -/

/-- contextLines: unchanged lines shown around each hunk. -/
def contextLines : Nat := 3

/-- strings.SplitAfter(s, "\n"): pieces keep their terminator. -/
def splitAfterNL : Str → List Str
  | [] => [[]]
  | c :: rest =>
    if c = '\n' then ['\n'] :: splitAfterNL rest
    else match splitAfterNL rest with
      | [] => [[c]]
      | h :: t => (c :: h) :: t

/-- splitLines from diff.go: zero lines for the empty string, and the
empty piece after a trailing newline dropped. -/
def splitLinesDiff (st : Str) : List Str :=
  if st = [] then []
  else
    let lines := splitAfterNL st
    if lines.getLast? = some [] then lines.dropLast else lines

/-- editKind from diff.go. -/
inductive EditKind where
  | editEqual
  | editInsert
  | editDelete
deriving DecidableEq, Repr

export EditKind (editEqual editInsert editDelete)

/-- edit from diff.go: one diff operation (indices are -1 on the side
the operation does not touch). -/
structure Edit where
  kind : EditKind
  oldIdx : Int
  newIdx : Int
deriving DecidableEq, Repr

/-- v[k+total] reads of the Myers arrays (Go int slice, zero default). -/
def vGet (v : Array Nat) (total : Nat) (k : Int) : Nat :=
  v.getD (k + total).toNat 0

def vSet (v : Array Nat) (total : Nat) (k : Int) (x : Nat) : Array Nat :=
  v.setD (k + total).toNat x

/-- Line indexing with a default (Go indexes in bounds). -/
def lineAt (lines : List Str) (i : Int) : Str :=
  lines.getD i.toNat []

/-- The greedy diagonal ("snake") loop of the myers search: follow
equal lines from x on diagonal k.  Fuel dominates the remaining length
of a. -/
def slideDiag (a b : List Str) (k : Int) : Nat → Nat → Nat
  | 0, x => x
  | fuel + 1, x =>
    if x < a.length ∧ (x : Int) - k < (b.length : Int) ∧
        lineAt a (x : Int) = lineAt b ((x : Int) - k) then
      slideDiag a b k fuel (x + 1)
    else x

/-- The down-or-right choice made by the myers inner loop (and again by
backtrack): true selects the move down (an insert). -/
def moveDown (v : Array Nat) (total : Nat) (d : Int) (k : Int) : Bool :=
  k = -d ∨ (k ≠ d ∧ vGet v total (k - 1) < vGet v total (k + 1))

/-- One round of the myers inner loop over k = -d, -d+2, ..., d,
threading the v array; reports whether the end state was reached.
Fuel dominates d+1 iterations. -/
def kLoop (a b : List Str) (total d : Nat) : Nat → Nat → Array Nat → Bool × Array Nat
  | 0, _, v => (false, v)
  | fuel + 1, i, v =>
    if i > d then (false, v)
    else
      let k : Int := -(d : Int) + 2 * i
      let x0 : Nat :=
        if moveDown v total (d : Int) k then vGet v total (k + 1)
        else vGet v total (k - 1) + 1
      let x := slideDiag a b k (a.length + 1) x0
      let v2 := vSet v total k x
      if x ≥ a.length ∧ (x : Int) - k ≥ (b.length : Int) then (true, v2)
      else kLoop a b total d fuel (i + 1) v2

/-- The equal-run loop inside backtrack: move diagonally back while
both coordinates exceed the previous endpoint, recording equal edits
in Go append order.  Fuel dominates x. -/
def diagBack (prevX prevY : Int) : Nat → Int → Int → List Edit → Int × Int × List Edit
  | 0, x, y, acc => (x, y, acc)
  | fuel + 1, x, y, acc =>
    if x > prevX ∧ y > prevY then
      diagBack prevX prevY fuel (x - 1) (y - 1)
        (acc ++ [⟨editEqual, x - 1, y - 1⟩])
    else (x, y, acc)

/-- The step loop of backtrack, from step = d down to 1. -/
def backtrackSteps (trace : List (Array Nat)) (total : Nat) :
    Nat → Int → Int → List Edit → Int × Int × List Edit
  | 0, x, y, acc => (x, y, acc)
  | step + 1, x, y, acc =>
    let stp := step + 1
    let v := trace.getD stp #[]
    let k := x - y
    let down := moveDown v total (stp : Int) k
    let prevK := if down then k + 1 else k - 1
    let prevX : Int := (vGet v total prevK : Int)
    let prevY := prevX - prevK
    let r := diagBack prevX prevY (x.toNat + 1) x y acc
    let x2 := r.1
    let y2 := r.2.1
    let acc2 := r.2.2
    if down then
      backtrackSteps trace total step x2 (y2 - 1) (acc2 ++ [⟨editInsert, -1, y2 - 1⟩])
    else
      backtrackSteps trace total step (x2 - 1) y2 (acc2 ++ [⟨editDelete, x2 - 1, -1⟩])

/-- The remaining-diagonal loop after the steps (the d = 0 part). -/
def diagRemaining : Nat → Int → Int → List Edit → List Edit
  | 0, _, _, acc => acc
  | fuel + 1, x, y, acc =>
    if x > 0 ∧ y > 0 then
      diagRemaining fuel (x - 1) (y - 1) (acc ++ [⟨editEqual, x - 1, y - 1⟩])
    else acc

/-- backtrack from diff.go: reconstruct the edit script from the trace
(append order, reversed at the end, as in the source). -/
def backtrack (trace : List (Array Nat)) (a b : List Str) (d total : Nat) :
    List Edit :=
  let n := a.length
  let m := b.length
  let r := backtrackSteps trace total d (n : Int) (m : Int) []
  let acc := diagRemaining (r.1.toNat + 1) r.1 r.2.1 r.2.2
  acc.reverse

/-- The outer d loop of myers.  Fuel dominates total+1 rounds; falling
out of the loop returns nil as in the source. -/
def dLoop (a b : List Str) (total : Nat) :
    Nat → Nat → Array Nat → List (Array Nat) → List Edit
  | 0, _, _, _ => []
  | fuel + 1, d, v, trace =>
    if d > total then []
    else
      let trace2 := trace ++ [v]
      let r := kLoop a b total d (d + 1) 0 v
      if r.1 then backtrack trace2 a b d total
      else dLoop a b total fuel (d + 1) r.2 trace2

/-- myers from diff.go: shortest edit script between two line lists. -/
def myers (a b : List Str) : List Edit :=
  let n := a.length
  let m := b.length
  let total := n + m
  if total = 0 then []
  else dLoop a b total (total + 1) 0 (Array.mkArray (2 * total + 1) 0) []

/-- region from diff.go: a contiguous range of changed edit indices. -/
structure Region where
  start : Nat
  stop : Nat
deriving DecidableEq, Repr

/-- findChangeRegions from diff.go. -/
def findChangeRegions (edits : List Edit) : List Region :=
  (edits.enum.foldl (fun regions ei =>
    if ei.2.kind = editEqual then regions
    else match regions.getLast? with
      | none => regions ++ [⟨ei.1, ei.1⟩]
      | some lastRegion =>
        if ei.1 > lastRegion.stop + 1 then regions ++ [⟨ei.1, ei.1⟩]
        else regions.dropLast ++ [⟨lastRegion.start, ei.1⟩]) [])

/-- mergeRegions from diff.go: merge regions whose context windows
touch.  (Region starts strictly exceed the previous stop, so natural
subtraction agrees with the Go int subtraction.) -/
def mergeRegions (regions : List Region) : List Region :=
  regions.foldl (fun merged r =>
    match merged.getLast? with
    | none => merged ++ [r]
    | some lastRegion =>
      if r.start - lastRegion.stop ≤ 2 * contextLines then
        merged.dropLast ++ [⟨lastRegion.start, r.stop⟩]
      else merged ++ [r]) []

/-- hunk from diff.go. -/
structure Hunk where
  oldStart : Int
  oldCount : Nat
  newStart : Int
  newCount : Nat
  edits : List Edit
deriving DecidableEq, Repr

/-- findHunkStarts from diff.go. -/
def findHunkStarts (edits : List Edit) : Int × Int :=
  (match edits.find? (fun e => e.oldIdx ≥ 0) with
   | some e => e.oldIdx
   | none => 0,
   match edits.find? (fun e => e.newIdx ≥ 0) with
   | some e => e.newIdx
   | none => 0)

/-- countHunkLines from diff.go. -/
def countHunkLines (edits : List Edit) : Nat × Nat :=
  (edits.foldl (fun c e =>
    match e.kind with
    | editEqual => (c.1 + 1, c.2 + 1)
    | editDelete => (c.1 + 1, c.2)
    | editInsert => (c.1, c.2 + 1)) (0, 0))

/-- regionsToHunks from diff.go: pad with up to contextLines lines of
context, clamped to the ends (Go max/min; natural subtraction is the
clamped max against 0). -/
def regionsToHunks (regions : List Region) (edits : List Edit) : List Hunk :=
  regions.map (fun r =>
    let start := r.start - contextLines
    let stop := min (r.stop + contextLines) (edits.length - 1)
    let hunkEdits := (edits.drop start).take (stop + 1 - start)
    let starts := findHunkStarts hunkEdits
    let counts := countHunkLines hunkEdits
    ⟨starts.1, counts.1, starts.2, counts.2, hunkEdits⟩)

/-- buildHunks from diff.go. -/
def buildHunks (edits : List Edit) : List Hunk :=
  if edits = [] then []
  else regionsToHunks (mergeRegions (findChangeRegions edits)) edits

/-- ensureNewline from diff.go. -/
def ensureNewline (line : Str) : Str :=
  if nl.isSuffixOf line then line else line ++ nl

/-- Decimal rendering of the (possibly negative) Go ints printed in
hunk headers. -/
def intStr (i : Int) : Str :=
  if i < 0 then '-' :: (Nat.repr i.natAbs).toList else (Nat.repr i.toNat).toList

/-- writeTo from diff.go: render one hunk. -/
def hunkWriteTo (h : Hunk) (oldLines newLines : List Str) : Str :=
  ("@@ -").toList ++ intStr (h.oldStart + 1) ++ [','] ++ intStr (h.oldCount : Int) ++
    (" +").toList ++ intStr (h.newStart + 1) ++ [','] ++ intStr (h.newCount : Int) ++
    (" @@").toList ++ nl ++
  (h.edits.map (fun e =>
    match e.kind with
    | editEqual => ' ' :: ensureNewline (lineAt oldLines e.oldIdx)
    | editDelete => '-' :: ensureNewline (lineAt oldLines e.oldIdx)
    | editInsert => '+' :: ensureNewline (lineAt newLines e.newIdx))).flatten

/-- Unified from diff.go: unified diff between oldText and newText,
empty for identical inputs. -/
def Unified (filename oldText newText : Str) : Str :=
  if oldText = newText then []
  else
    let oldLines := splitLinesDiff oldText
    let newLines := splitLinesDiff newText
    let edits := myers oldLines newLines
    let hunks := buildHunks edits
    if hunks = [] then []
    else
      ("--- a/").toList ++ filename ++ nl ++
      ("+++ b/").toList ++ filename ++ nl ++
      (hunks.map (fun h => hunkWriteTo h oldLines newLines)).flatten

/-! ## 7. Claims -/

set_option maxRecDepth 100000

instance : Inhabited Node := ⟨Node.mk NodeRaw 0 [] [] {}⟩

/-! ### C1 — pipeline idempotence -/

/-- C1: the spec claims `pipeline(pipeline(text)) == pipeline(text)` for
every text and configuration.  The code violates this: with the default
configuration, a comment inside a conditional body keeps its already
indented Raw text, and the indent-conditionals rule prepends another
indent on every run, so a second format run changes the text again.
This theorem evaluates the embedded pipeline at the failing input. -/
theorem pipeline_not_idempotent_on_conditional_comment :
    formatInput defaultConfig (("ifdef DEBUG\n# x\nendif\n").toList)
      = ("ifdef DEBUG\n  # x\nendif\n").toList
    ∧ formatInput defaultConfig
        (formatInput defaultConfig (("ifdef DEBUG\n# x\nendif\n").toList))
      = ("ifdef DEBUG\n    # x\nendif\n").toList
    ∧ formatInput defaultConfig
        (formatInput defaultConfig (("ifdef DEBUG\n# x\nendif\n").toList))
      ≠ formatInput defaultConfig (("ifdef DEBUG\n# x\nendif\n").toList) := by
  refine ⟨by decide, by decide, by decide⟩

/-! ### C9 — override assignments -/

/-- C9: the spec (and the repository's own alignment design notes) say
a line `override NAME = value` parses as an assignment whose variable
name is the compound `override NAME`.  The code classifies it as a
directive node instead: tryDirective runs before tryAssignment and the
directive keyword set contains `override`, so the compound-name branch
of tryAssignment is unreachable.  This theorem evaluates the embedded
parser at the failing input. -/
theorem override_assignment_parses_as_directive :
    Parse (("override NAME = value\n").toList) =
      [Node.mk NodeDirective 1 (("override NAME = value").toList) []
        { text := ("override NAME = value").toList }]
    ∧ tryAssignment (("override NAME = value").toList)
        (("override NAME = value").toList) =
      some (mkNode NodeAssignment (("override NAME = value").toList)
        { varName := ("override NAME").toList, assignOp := ("=").toList,
          varValue := ("value").toList }) := by
  refine ⟨by decide, by decide⟩

/-! ### C10 — empty input -/

/-- C10: parse of the empty string is the empty node sequence, write of
the empty sequence is the empty string, and the full registered
pipeline maps empty input to empty output under every configuration
(no trailing newline is inserted). -/
theorem empty_input_formats_to_empty_output :
    Parse [] = [] ∧ Write [] = [] ∧
      ∀ cfg : FormatterConfig, formatInput cfg [] = [] := by
  refine ⟨rfl, rfl, fun cfg => ?_⟩
  have t1 : TrailingWhitespaceFormat cfg [] = [] := by
    unfold TrailingWhitespaceFormat; split <;> rfl
  have t2 : FinalNewlineFormat cfg [] = [] := by
    unfold FinalNewlineFormat; split <;> rfl
  have t3 : BlankLinesFormat cfg [] = [] := by
    unfold BlankLinesFormat; split <;> rfl
  have t4 : AssignmentSpacingFormat cfg [] = [] := by
    unfold AssignmentSpacingFormat; split <;> rfl
  have t5 : BackslashAlignFormat cfg [] = [] := by
    unfold BackslashAlignFormat; split <;> rfl
  have t6 : CommentSpacingFormat cfg [] = [] := by
    unfold CommentSpacingFormat; split <;> rfl
  have t7 : ConditionalIndentFormat cfg [] = [] := by
    unfold ConditionalIndentFormat; split <;> rfl
  show Write (Run (Parse []) cfg registryRules) = []
  have hp : Parse [] = [] := rfl
  rw [hp]
  simp only [Run, registryRules, List.foldl_cons, List.foldl_nil]
  rw [t1, t2, t3, t4, t5, t6, t7]
  rfl

/-! ### C2 — total classifier with verbatim fallback -/

/-- C2: the classifier is a total function (the embedding is a Lean
function, so it terminates on every input by construction), and when a
line matches none of the classification rules it degrades to a raw
node holding the original text verbatim.  The hypotheses are exactly
the eleven guards of classifyLine failing. -/
theorem classifier_fallback_preserves_raw (inRule : Bool) (joined raw : Str)
    (h1 : trimSpace joined ≠ [])
    (h2 : ¬ (("define ").toList.isPrefixOf (trimSpace joined) ∨
             trimSpace joined = ("define").toList))
    (h3 : ¬ ("##@").toList.isPrefixOf (trimSpace joined))
    (h4 : ¬ isBannerComment (trimSpace joined))
    (h5 : ¬ ("#").toList.isPrefixOf (trimSpace joined))
    (h6 : ¬ (("\t").toList.isPrefixOf joined ∧ inRule))
    (h7 : tryConditional (trimSpace joined) raw = none)
    (h8 : tryInclude (trimSpace joined) raw = none)
    (h9 : tryDirective (trimSpace joined) raw = none)
    (h10 : tryAssignment (trimSpace joined) raw = none)
    (h11 : tryRule (trimSpace joined) raw = none) :
    classifyLine inRule joined raw = (mkNode NodeRaw raw {}, false) := by
  unfold classifyLine
  rw [if_neg h1, if_neg h2, if_neg h3, if_neg h4, if_neg h5, if_neg h6,
    h7, h8, h9, h10, h11]

/-- Witness for C2 at a concrete unclassifiable line. -/
theorem classifier_fallback_preserves_raw_witness :
    classifyLine false (("%% garbage %%").toList) (("%% garbage %%").toList)
      = (mkNode NodeRaw (("%% garbage %%").toList) {}, false) :=
  classifier_fallback_preserves_raw false (("%% garbage %%").toList)
    (("%% garbage %%").toList) (by decide) (by decide) (by decide) (by decide)
    (by decide) (by decide) (by decide) (by decide) (by decide) (by decide)
    (by decide)

/-! ### C3 — round trip -/

/-- C3 counterexample: a text the formatting rules leave untouched
(running the full default pipeline on its parse returns the very same
node sequence) that still fails `write(parse(text)) == text`: the
parser hoists the second recipe line above the intervening comment to
attach it to its rule, reordering the document. -/
theorem roundtrip_fails_on_hoisted_recipe :
    Run (Parse (("a:\n\tx\n# c\n\ty\n").toList)) defaultConfig registryRules
      = Parse (("a:\n\tx\n# c\n\ty\n").toList)
    ∧ Write (Parse (("a:\n\tx\n# c\n\ty\n").toList))
        = ("a:\n\tx\n\ty\n# c\n").toList
    ∧ Write (Parse (("a:\n\tx\n# c\n\ty\n").toList))
        ≠ ("a:\n\tx\n# c\n\ty\n").toList := by
  refine ⟨by decide, by decide, by decide⟩

/-! ### C3 amended: round trip on texts without recipes, define blocks
or continuations.  Helper lemmas about splitting and writing. -/

/-- Text written for a list of lines: each line followed by a newline. -/
def writeLines (ls : List Str) : Str :=
  (ls.map (fun l => l ++ nl)).flatten

theorem splitOnNL_getLast (s : Str) (h : s.getLast? = some '\n') :
    (splitOnNL s).getLast? = some [] ∧ 2 ≤ (splitOnNL s).length := by
  induction s with
  | nil => simp at h
  | cons c rest ih =>
    cases rest with
    | nil =>
      simp only [List.getLast?_singleton, Option.some.injEq] at h
      subst h
      simp [splitOnNL]
    | cons d rest2 =>
      rw [List.getLast?_cons_cons] at h
      obtain ⟨hl, hlen⟩ := ih h
      rcases hs : splitOnNL (d :: rest2) with _ | ⟨p, _ | ⟨q, r2⟩⟩
      · rw [hs] at hlen; simp at hlen
      · rw [hs] at hlen; simp at hlen
      · rw [hs] at hl
        have key : splitOnNL (c :: d :: rest2) =
            if c = '\n' then ([] : Str) :: p :: q :: r2 else (c :: p) :: q :: r2 := by
          unfold splitOnNL
          rw [hs]
        rw [key]
        split
        · refine ⟨?_, by simp⟩
          rw [List.getLast?_cons_cons]
          exact hl
        · refine ⟨?_, by simp⟩
          rw [List.getLast?_cons_cons, ← List.getLast?_cons_cons (a := p)]
          exact hl

theorem writeLines_dropLast_splitOnNL (s : Str) (h : s.getLast? = some '\n') :
    writeLines ((splitOnNL s).dropLast) = s := by
  induction s with
  | nil => simp at h
  | cons c rest ih =>
    cases rest with
    | nil =>
      simp only [List.getLast?_singleton, Option.some.injEq] at h
      subst h
      decide
    | cons d rest2 =>
      rw [List.getLast?_cons_cons] at h
      have hrec := ih h
      obtain ⟨hl, hlen⟩ := splitOnNL_getLast (d :: rest2) h
      rcases hs : splitOnNL (d :: rest2) with _ | ⟨p, _ | ⟨q, r2⟩⟩
      · rw [hs] at hlen; simp at hlen
      · rw [hs] at hlen; simp at hlen
      · rw [hs] at hrec
        have key : splitOnNL (c :: d :: rest2) =
            if c = '\n' then ([] : Str) :: p :: q :: r2 else (c :: p) :: q :: r2 := by
          unfold splitOnNL
          rw [hs]
        rw [key]
        rw [List.dropLast_cons₂] at hrec
        split
        · rename_i hc
          subst hc
          rw [List.dropLast_cons₂]
          have hstep : writeLines ([] :: (p :: q :: r2).dropLast)
              = nl ++ writeLines ((p :: q :: r2).dropLast) := by
            simp [writeLines]
          rw [List.dropLast_cons₂] at hstep ⊢
          rw [hstep, hrec]
          rfl
        · rw [List.dropLast_cons₂]
          have hstep : writeLines ((c :: p) :: (q :: r2).dropLast)
              = c :: ((p ++ nl) ++ writeLines ((q :: r2).dropLast)) := by
            simp [writeLines]
          rw [hstep]
          have hrec2 : (p ++ nl) ++ writeLines ((q :: r2).dropLast) = d :: rest2 := by
            simpa [writeLines] using hrec
          rw [hrec2]

theorem splitLines_of_ends_nl (s : Str) (h : s.getLast? = some '\n') :
    splitLines s = (splitOnNL s).dropLast := by
  have hne : s ≠ [] := by rintro rfl; simp at h
  obtain ⟨hl, hlen⟩ := splitOnNL_getLast s h
  unfold splitLines
  rw [if_neg hne, if_pos ⟨by omega, hl⟩]

theorem Write_append (xs ys : List Node) : Write (xs ++ ys) = Write xs ++ Write ys := by
  induction xs with
  | nil => simp [Write]
  | cons n rest ih => simp [Write, ih]

theorem writeNodeText_eq (n : Node) :
    writeNodeText n = (if n.raw ≠ [] then n.raw
      else reconstructFields n.type n.fields) ++ writeChildrenText n.children := by
  cases n
  unfold writeNodeText
  split <;> simp_all [Node.raw, Node.type, Node.fields, Node.children]

theorem setLine_raw (n : Node) (k : Nat) : (n.setLine k).raw = n.raw := by
  cases n; rfl

theorem setLine_children (n : Node) (k : Nat) : (n.setLine k).children = n.children := by
  cases n; rfl

theorem setLine_type (n : Node) (k : Nat) : (n.setLine k).type = n.type := by
  cases n; rfl

theorem setLine_fields (n : Node) (k : Nat) : (n.setLine k).fields = n.fields := by
  cases n; rfl

theorem mkNode_shape (t : NodeType) (raw : Str) (f : NodeFields) :
    (mkNode t raw f).raw = raw ∧ (mkNode t raw f).children = [] ∧
    (mkNode t raw f).type = t ∧ (mkNode t raw f).fields = f :=
  ⟨rfl, rfl, rfl, rfl⟩

theorem tryConditional_some {t raw : Str} {n : Node} (h : tryConditional t raw = some n) :
    n.raw = raw ∧ n.children = [] ∧ n.type = NodeConditional := by
  unfold tryConditional at h
  rcases hf : conditionalKeywords.find? (keywordMatches t) with _ | kw <;> rw [hf] at h
  · exact absurd h (by simp)
  · simp only [Option.some.injEq] at h
    subst h
    exact ⟨rfl, rfl, rfl⟩

theorem tryInclude_some {t raw : Str} {n : Node} (h : tryInclude t raw = some n) :
    n.raw = raw ∧ n.children = [] ∧ n.type = NodeInclude := by
  unfold tryInclude at h
  rcases hf : includeKeywords.find? (keywordMatches t) with _ | kw <;> rw [hf] at h
  · exact absurd h (by simp)
  · simp only [Option.some.injEq] at h
    subst h
    exact ⟨rfl, rfl, rfl⟩

theorem tryDirective_some {t raw : Str} {n : Node} (h : tryDirective t raw = some n) :
    n.raw = raw ∧ n.children = [] ∧ n.type = NodeDirective := by
  simp only [tryDirective] at h
  repeat' split at h
  all_goals injection h
  all_goals (rename_i h2; subst h2; exact ⟨rfl, rfl, rfl⟩)

theorem tryAssignOp_some {t raw op : Str} {n : Node} (h : tryAssignOp t raw op = some n) :
    n.raw = raw ∧ n.children = [] ∧ n.type = NodeAssignment := by
  simp only [tryAssignOp] at h
  repeat' split at h
  all_goals injection h
  all_goals (rename_i h2; subst h2; exact ⟨rfl, rfl, rfl⟩)

theorem tryAssignment_some {t raw : Str} {n : Node} (h : tryAssignment t raw = some n) :
    n.raw = raw ∧ n.children = [] ∧ n.type = NodeAssignment := by
  unfold tryAssignment at h
  revert h
  generalize assignOps = ops
  induction ops with
  | nil => intro h; exact absurd h (by simp [tryAssignLoop])
  | cons op rest ih =>
    intro h
    unfold tryAssignLoop at h
    rcases ho : tryAssignOp t raw op with _ | n2 <;> rw [ho] at h
    · exact ih h
    · simp only [Option.some.injEq] at h
      subst h
      exact tryAssignOp_some ho

theorem tryRule_some {t raw : Str} {n : Node} (h : tryRule t raw = some n) :
    n.raw = raw ∧ n.children = [] ∧ n.type = NodeRule := by
  simp only [tryRule] at h
  repeat' split at h
  all_goals injection h
  all_goals (rename_i h2; subst h2; exact ⟨rfl, rfl, rfl⟩)

theorem parseComment_shape (t raw : Str) :
    (parseComment t raw).raw = raw ∧ (parseComment t raw).children = [] ∧
    (parseComment t raw).type = NodeComment := by
  unfold parseComment
  exact ⟨rfl, rfl, rfl⟩

theorem parseComment_type (t raw : Str) : (parseComment t raw).type = NodeComment :=
  (parseComment_shape t raw).2.2

theorem classify_raw_children (inRule : Bool) (joined raw : Str) :
    ((classifyLine inRule joined raw).1).raw = raw ∧
    ((classifyLine inRule joined raw).1).children = [] := by
  simp only [classifyLine]
  repeat' split
  all_goals try exact ⟨rfl, rfl⟩
  all_goals try exact ⟨(parseComment_shape _ _).1, (parseComment_shape _ _).2.1⟩
  all_goals try exact ⟨(tryConditional_some (by assumption)).1,
    (tryConditional_some (by assumption)).2.1⟩
  all_goals try exact ⟨(tryInclude_some (by assumption)).1,
    (tryInclude_some (by assumption)).2.1⟩
  all_goals try exact ⟨(tryDirective_some (by assumption)).1,
    (tryDirective_some (by assumption)).2.1⟩
  all_goals try exact ⟨(tryAssignment_some (by assumption)).1,
    (tryAssignment_some (by assumption)).2.1⟩
  all_goals exact ⟨(tryRule_some (by assumption)).1,
    (tryRule_some (by assumption)).2.1⟩

theorem classify_not_recipe (inRule : Bool) (joined raw : Str)
    (htab : ("\t").toList.isPrefixOf joined = false) :
    ((classifyLine inRule joined raw).1).type ≠ NodeRecipe := by
  simp only [classifyLine]
  repeat' split
  all_goals dsimp only
  all_goals try (simp [mkNode, Node.type]; done)
  all_goals try (exact absurd (And.left (by assumption)) (by rw [htab]; simp))
  all_goals try (rw [parseComment_type]; simp)
  all_goals try (rw [(tryConditional_some (by assumption)).2.2]; simp)
  all_goals try (rw [(tryInclude_some (by assumption)).2.2]; simp)
  all_goals try (rw [(tryDirective_some (by assumption)).2.2]; simp)
  all_goals try (rw [(tryAssignment_some (by assumption)).2.2]; simp)
  all_goals (rw [(tryRule_some (by assumption)).2.2]; simp)

theorem classify_flag_false (inRule : Bool) (joined raw : Str)
    (hdef : ¬ (("define ").toList.isPrefixOf (trimSpace joined) ∨
               trimSpace joined = ("define").toList)) :
    (classifyLine inRule joined raw).2 = false := by
  simp only [classifyLine]
  repeat' split
  all_goals try rfl
  all_goals exact absurd (by assumption) hdef

theorem addNode_append (acc : List Node) (inRule : Bool) (node : Node)
    (h : node.type ≠ NodeRecipe) :
    (addNode acc inRule node).1 = acc ++ [node] := by
  unfold addNode
  split <;> first | rfl | (exact absurd (by assumption ▸ rfl) h) | skip
  all_goals rename_i ht
  all_goals first | rfl | (exact absurd ht h)

theorem joinContinuations_single (l : Str) (rest : List Str)
    (h : hasContinuation l = false) :
    joinContinuations (l :: rest) = (l, 1) := by
  unfold joinContinuations
  simp [h]

theorem writeNodeText_of_classify (inRule : Bool) (l : Str) (k : Nat) :
    writeNodeText (((classifyLine inRule l l).1).setLine k) = l := by
  rcases hcl : l with _ | ⟨c, rest⟩
  · rfl
  · rw [← hcl]
    have hsh := classify_raw_children inRule l l
    rw [writeNodeText_eq]
    rw [setLine_raw, setLine_children, hsh.1, hsh.2]
    have hne : l ≠ [] := by rw [hcl]; simp
    rw [if_pos hne]
    unfold writeChildrenText
    simp

theorem parseLoop_writer (lines : List Str)
    (hl : ∀ l ∈ lines, hasContinuation l = false ∧
          ("\t").toList.isPrefixOf l = false ∧
          ¬ (("define ").toList.isPrefixOf (trimSpace l) ∨
             trimSpace l = ("define").toList)) :
    ∀ fuel, lines.length ≤ fuel → ∀ acc inRule ln,
      Write (parseLoop fuel acc inRule ln lines) = Write acc ++ writeLines lines := by
  induction lines with
  | nil =>
    intro fuel _ acc inRule ln
    cases fuel <;> simp [parseLoop, writeLines]
  | cons l rest ih =>
    intro fuel hfuel acc inRule ln
    obtain ⟨hc, htab, hdef⟩ := hl l (List.mem_cons_self l rest)
    have hrest := fun x hx => hl x (List.mem_cons_of_mem l hx)
    cases fuel with
    | zero => simp at hfuel
    | succ f =>
      have hf : rest.length ≤ f := by simp at hfuel; omega
      rw [parseLoop]
      rw [joinContinuations_single l rest hc]
      simp only [List.take_succ_cons, List.take_zero, List.drop_succ_cons, List.drop_zero]
      rw [classify_flag_false inRule l (joinSep nl [l]) hdef]
      simp only [if_false, Bool.false_eq_true]
      have hraw : joinSep nl [l] = l := rfl
      rw [hraw]
      rw [addNode_append acc inRule _ (fun hh => by
        rw [setLine_type] at hh
        exact classify_not_recipe inRule l l htab hh)]
      rw [ih hrest f hf (acc ++ [((classifyLine inRule l l).1).setLine (ln + 1)]) _ _]
      rw [Write_append]
      have : Write [((classifyLine inRule l l).1).setLine (ln + 1)]
          = writeNodeText (((classifyLine inRule l l).1).setLine (ln + 1)) ++ nl := by
        unfold Write
        simp [Write]
      rw [this, writeNodeText_of_classify]
      simp [writeLines]

/-- C3 amended: for every text that is empty or ends in a newline and
whose lines contain no backslash continuations, no tab-led lines and
no define blocks, write(parse(text)) == text.  (The counterexample
shows parse hoists recipe lines above intervening comment/blank nodes
to reattach them to their rule, so such texts can reorder.) -/
theorem roundtrip_on_plain_lines (src : Str)
    (hend : src = [] ∨ src.getLast? = some '\n')
    (hl : ∀ l ∈ splitLines src, hasContinuation l = false ∧
          ("\t").toList.isPrefixOf l = false ∧
          ¬ (("define ").toList.isPrefixOf (trimSpace l) ∨
             trimSpace l = ("define").toList)) :
    Write (Parse src) = src := by
  rcases hend with rfl | hnl
  · rfl
  · unfold Parse
    rw [parseLoop_writer (splitLines src) hl (splitLines src).length le_rfl [] false 0]
    rw [splitLines_of_ends_nl src hnl]
    show [] ++ writeLines ((splitOnNL src).dropLast) = src
    rw [List.nil_append]
    exact writeLines_dropLast_splitOnNL src hnl

/-- Witness for the amended round-trip theorem at a concrete text. -/
theorem roundtrip_on_plain_lines_witness :
    Write (Parse (("X = 1\n# c\n\nifdef A\nendif\n").toList))
      = ("X = 1\n# c\n\nifdef A\nendif\n").toList :=
  roundtrip_on_plain_lines (("X = 1\n# c\n\nifdef A\nendif\n").toList)
    (Or.inr (by decide)) (by decide)

/-! ### C5 — diff non-triviality -/

/-- Whether a diff output contains a line prefixed with the given
change character whose remaining content is a line of the given text
(lines keep their terminators, as the diff engine splits them). -/
def hasChangeLineFrom (out : Str) (mark : Char) (src : Str) : Prop :=
  ∃ l ∈ splitLinesDiff out, l.head? = some mark ∧ l.tail ∈ splitLinesDiff src

instance (out : Str) (mark : Char) (src : Str) :
    Decidable (hasChangeLineFrom out mark src) := by
  unfold hasChangeLineFrom; infer_instance

/-- C5 counterexample: a pure insertion.  The diff of `"line1\n"`
against `"line1\nline2\n"` is non-empty but contains no '-' line whose
content is a line of the old text, refuting the claim that both a '-'
line from s1 and a '+' line from s2 always occur when s1 differs
from s2. -/
theorem diff_insertion_has_no_deletion_line :
    ("line1\n").toList ≠ ("line1\nline2\n").toList
    ∧ Unified (("f").toList) (("line1\n").toList) (("line1\nline2\n").toList)
        = ("--- a/f\n+++ b/f\n@@ -1,1 +1,2 @@\n line1\n+line2\n").toList
    ∧ ¬ hasChangeLineFrom
        (Unified (("f").toList) (("line1\n").toList) (("line1\nline2\n").toList))
        '-' (("line1\n").toList) := by
  refine ⟨by decide, by decide, by decide⟩

/-! ### C7 — assignment alignment columns -/

/-- The operator op begins at the given 1-indexed column of the line. -/
def opBeginsAtCol (line op : Str) (col : Nat) : Prop :=
  op.isPrefixOf (line.drop (col - 1))

instance (line op : Str) (col : Nat) : Decidable (opBeginsAtCol line op col) := by
  unfold opBeginsAtCol; infer_instance

/-- C7 counterexample: the spec's own concrete alignment scenario.  The
longest trimmed name of the group is PROJECT_OWNER, 13 characters; in
the default (space) mode the writer puts one space between the padded
name and the operator, so the operator begins at 1-indexed column
2 + 13 = 15, not at 1 + 13 = 14 as claimed. -/
theorem alignment_operator_column_off_by_one :
    writeNodeText ((AlignAssignmentsFormat defaultConfig (Parse
        (("PROJECT_NAME := makefmt\nPROJECT_OWNER := donaldgifford\nDESCRIPTION := GNU Make formatter\n").toList))).headI)
      = ("PROJECT_NAME  := makefmt").toList
    ∧ ¬ opBeginsAtCol (("PROJECT_NAME  := makefmt").toList) ((":=").toList) (1 + 13)
    ∧ opBeginsAtCol (("PROJECT_NAME  := makefmt").toList) ((":=").toList) (2 + 13) := by
  refine ⟨by decide, by decide, by decide⟩

/-! ### C7 amended: helper lemmas about the group-scanning loop of
AlignAssignments.Format. -/

theorem takeWhile_append_all {α : Type} {p : α → Bool} {xs ys : List α}
    (h : ∀ x ∈ xs, p x = true) :
    (xs ++ ys).takeWhile p = xs ++ ys.takeWhile p := by
  induction xs with
  | nil => simp
  | cons a rest ih =>
    simp only [List.cons_append, List.takeWhile_cons]
    rw [h a (List.mem_cons_self a rest)]
    simp [ih (fun x hx => h x (List.mem_cons_of_mem a hx))]

theorem dropWhile_append_all {α : Type} {p : α → Bool} {xs ys : List α}
    (h : ∀ x ∈ xs, p x = true) :
    (xs ++ ys).dropWhile p = ys.dropWhile p := by
  induction xs with
  | nil => simp
  | cons a rest ih =>
    simp only [List.cons_append, List.dropWhile_cons]
    rw [h a (List.mem_cons_self a rest)]
    simp [ih (fun x hx => h x (List.mem_cons_of_mem a hx))]

theorem takeWhile_head_not {α : Type} {p : α → Bool} {ys : List α}
    (h : ∀ x, ys.head? = some x → p x = false) :
    ys.takeWhile p = [] := by
  cases ys with
  | nil => simp
  | cons a rest =>
    simp only [List.takeWhile_cons]
    rw [h a rfl]
    simp

theorem takeWhile_append_stop {α : Type} {p : α → Bool} {xs : List α} (ys : List α)
    (h : xs.dropWhile p ≠ []) :
    (xs ++ ys).takeWhile p = xs.takeWhile p ∧
    (xs ++ ys).dropWhile p = xs.dropWhile p ++ ys := by
  induction xs with
  | nil => simp at h
  | cons a rest ih =>
    by_cases hp : p a = true
    · rw [List.dropWhile_cons, if_pos hp] at h
      obtain ⟨h1, h2⟩ := ih h
      constructor
      · simp [List.takeWhile_cons, hp, h1]
      · simp [List.dropWhile_cons, hp, h2]
    · have hp2 : p a = false := by revert hp; cases p a <;> simp
      constructor
      · simp only [List.cons_append, List.takeWhile_cons, hp2]
        simp
      · simp only [List.cons_append, List.dropWhile_cons, hp2]
        simp

theorem dropWhile_getLast {α : Type} {p : α → Bool} {xs : List α}
    (h : xs.dropWhile p ≠ []) :
    (xs.dropWhile p).getLast? = xs.getLast? := by
  induction xs with
  | nil => simp at h
  | cons a rest ih =>
    by_cases hp : p a = true
    · rw [List.dropWhile_cons, if_pos hp] at h ⊢
      rw [ih h]
      cases hr : rest with
      | nil => rw [hr] at h; simp [List.dropWhile] at h
      | cons b rest2 => rw [List.getLast?_cons_cons]
    · have hp2 : p a = false := by revert hp; cases p a <;> simp
      rw [List.dropWhile_cons, if_neg (by simp [hp2])]

/-- The predicate selecting assignment nodes (the run condition of the
scanning loop). -/
def isAssignNode (n : Node) : Bool := n.type = NodeAssignment

theorem alignGo_fuel (sp : Str) :
    ∀ fuel1 : Nat, ∀ ns : List Node, ns.length ≤ fuel1 → ∀ fuel2, ns.length ≤ fuel2 →
      alignAssignmentsGo sp fuel1 ns = alignAssignmentsGo sp fuel2 ns := by
  intro fuel1
  induction fuel1 with
  | zero =>
    intro ns h1 fuel2 h2
    cases ns with
    | nil => cases fuel2 <;> rfl
    | cons n rest => simp at h1
  | succ f ih =>
    intro ns h1 fuel2 h2
    cases ns with
    | nil => cases fuel2 <;> rfl
    | cons n rest =>
      cases fuel2 with
      | zero => simp at h2
      | succ f2 =>
        simp only [alignAssignmentsGo]
        by_cases ht : n.type = NodeAssignment
        · have hcond : ¬(n.type ≠ NodeAssignment) := not_not_intro ht
          rw [if_neg hcond, if_neg hcond]
          have hlen : (rest.drop (rest.takeWhile (fun m => m.type = NodeAssignment)).length).length ≤ f := by
            simp only [List.length_drop]
            simp only [List.length_cons] at h1
            omega
          have hlen2 : (rest.drop (rest.takeWhile (fun m => m.type = NodeAssignment)).length).length ≤ f2 := by
            simp only [List.length_drop]
            simp only [List.length_cons] at h2
            omega
          rw [ih _ hlen f2 hlen2]
        · rw [if_pos ht, if_pos ht]
          have hlen : rest.length ≤ f := by simp at h1; omega
          have hlen2 : rest.length ≤ f2 := by simp at h2; omega
          rw [ih rest hlen f2 hlen2]

/-- The scanning loop at exactly sufficient fuel. -/
def alignFull (sp : Str) (ns : List Node) : List Node :=
  alignAssignmentsGo sp ns.length ns

theorem alignFull_nil (sp : Str) : alignFull sp [] = [] := rfl

theorem alignFull_cons_nonassign (sp : Str) (n : Node) (rest : List Node)
    (h : n.type ≠ NodeAssignment) :
    alignFull sp (n :: rest) = n :: alignFull sp rest := by
  unfold alignFull
  simp only [List.length_cons, alignAssignmentsGo]
  rw [if_pos h]

theorem alignFull_run (sp : Str) (run post : List Node)
    (hrun : ∀ n ∈ run, n.type = NodeAssignment) (hne : run ≠ [])
    (hpost : ∀ x, post.head? = some x → x.type ≠ NodeAssignment) :
    alignFull sp (run ++ post)
      = (if run.length > 1 then alignGroup run sp else run) ++ alignFull sp post := by
  rcases run with _ | ⟨n, runTail⟩
  · exact absurd rfl hne
  unfold alignFull
  have hlen : ((n :: runTail) ++ post).length = (runTail ++ post).length + 1 := by simp
  rw [hlen]
  simp only [List.cons_append, alignAssignmentsGo, List.append_eq]
  have hcond : ¬(n.type ≠ NodeAssignment) :=
    not_not_intro (hrun n (List.mem_cons_self n runTail))
  rw [if_neg hcond]
  have htw : (runTail ++ post).takeWhile (fun m => m.type = NodeAssignment) = runTail := by
    rw [takeWhile_append_all (fun x hx => by
      simp [hrun x (List.mem_cons_of_mem n hx)])]
    rw [takeWhile_head_not (fun x hx => by simp [hpost x hx])]
    simp
  rw [htw]
  have hdrop : (runTail ++ post).drop runTail.length = post := List.drop_left _ _
  rw [hdrop]
  have hfuel : alignAssignmentsGo sp (runTail ++ post).length post
      = alignAssignmentsGo sp post.length post := by
    apply alignGo_fuel
    · simp
    · exact le_rfl
  rw [hfuel]

theorem dropLen_takeWhile {α : Type} (p : α → Bool) (l : List α) :
    l.drop (l.takeWhile p).length = l.dropWhile p := by
  induction l with
  | nil => rfl
  | cons a r ih =>
    by_cases hp : p a = true
    · simp [List.takeWhile_cons, List.dropWhile_cons, hp, ih]
    · have hp2 : p a = false := by revert hp; cases p a <;> simp
      simp [List.takeWhile_cons, List.dropWhile_cons, hp2]

theorem alignFull_cons_assign (sp : Str) (n : Node) (tail : List Node)
    (h : n.type = NodeAssignment) :
    alignFull sp (n :: tail)
      = (if (n :: tail.takeWhile (fun m => m.type = NodeAssignment)).length > 1
          then alignGroup (n :: tail.takeWhile (fun m => m.type = NodeAssignment)) sp
          else n :: tail.takeWhile (fun m => m.type = NodeAssignment))
        ++ alignFull sp (tail.drop (tail.takeWhile (fun m => m.type = NodeAssignment)).length) := by
  unfold alignFull
  simp only [List.length_cons, alignAssignmentsGo]
  rw [if_neg (not_not_intro h)]
  congr 1
  apply alignGo_fuel
  · simp only [List.length_drop]
    omega
  · exact le_rfl

theorem alignFull_append (sp : Str) :
    ∀ k : Nat, ∀ pre : List Node, pre.length ≤ k →
      (∀ x, pre.getLast? = some x → x.type ≠ NodeAssignment) →
      ∀ rest : List Node,
        alignFull sp (pre ++ rest) = alignFull sp pre ++ alignFull sp rest := by
  intro k
  induction k with
  | zero =>
    intro pre hk _ rest
    rcases pre with _ | _
    · simp [alignFull_nil]
    · simp at hk
  | succ k ih =>
    intro pre hk hlast rest
    rcases pre with _ | ⟨n, pre2⟩
    · simp [alignFull_nil]
    by_cases ht : n.type = NodeAssignment
    · -- the head opens an assignment run that must stop inside pre2
      have hpre2ne : pre2 ≠ [] := by
        rintro rfl
        exact hlast n rfl ht
      have hlast2 : ∀ x, pre2.getLast? = some x → x.type ≠ NodeAssignment := by
        intro x hx
        apply hlast x
        rcases pre2 with _ | ⟨b, t⟩
        · simp at hx
        · rw [List.getLast?_cons_cons]
          exact hx
      have hdropne : pre2.dropWhile (fun m => decide (m.type = NodeAssignment)) ≠ [] := by
        intro hd
        have hallp : ∀ x ∈ pre2, x.type = NodeAssignment := by
          intro x hx
          have := List.dropWhile_eq_nil_iff.mp hd x hx
          simpa using this
        rcases hg : pre2.getLast? with _ | last
        · exact hpre2ne (List.getLast?_eq_none_iff.mp hg)
        · exact hlast2 last hg
            (hallp last (List.mem_of_getLast?_eq_some hg))
      have hsum := congrArg List.length (List.takeWhile_append_dropWhile
        (p := fun m => decide (m.type = NodeAssignment)) (l := pre2))
      rw [List.length_append] at hsum
      have htwlen : (pre2.takeWhile (fun m => decide (m.type = NodeAssignment))).length
          ≤ pre2.length := by omega
      have hstop := takeWhile_append_stop rest hdropne
      have hLHS := alignFull_cons_assign sp n (pre2 ++ rest) ht
      have hRHS := alignFull_cons_assign sp n pre2 ht
      rw [List.cons_append, hLHS, hRHS]
      rw [hstop.1]
      have hdropeq : (pre2 ++ rest).drop
          (pre2.takeWhile (fun m => decide (m.type = NodeAssignment))).length
          = pre2.dropWhile (fun m => decide (m.type = NodeAssignment)) ++ rest := by
        rw [List.drop_append_of_le_length htwlen, dropLen_takeWhile]
      rw [hdropeq, dropLen_takeWhile]
      have hreclen : (pre2.dropWhile (fun m => decide (m.type = NodeAssignment))).length ≤ k := by
        have h1 : pre2.length ≤ k := by
          simp only [List.length_cons] at hk
          omega
        omega
      have hlastrec : ∀ x,
          (pre2.dropWhile (fun m => decide (m.type = NodeAssignment))).getLast? = some x →
          x.type ≠ NodeAssignment := by
        intro x hx
        rw [dropWhile_getLast hdropne] at hx
        exact hlast2 x hx
      rw [ih _ hreclen hlastrec rest]
      rw [List.append_assoc]
    · -- non-assignment head passes through
      have hlast2 : ∀ x, pre2.getLast? = some x → x.type ≠ NodeAssignment := by
        intro x hx
        apply hlast x
        rcases pre2 with _ | ⟨b, t⟩
        · simp at hx
        · rw [List.getLast?_cons_cons]
          exact hx
      have h1 : pre2.length ≤ k := by
        simp only [List.length_cons] at hk
        omega
      rw [List.cons_append, alignFull_cons_nonassign sp n _ ht,
        alignFull_cons_nonassign sp n _ ht, ih pre2 h1 hlast2 rest]
      rfl

theorem foldrMax_ge_of_mem {l : List Nat} {a : Nat} (h : a ∈ l) : a ≤ l.foldr max 0 := by
  induction l with
  | nil => cases h
  | cons b t ih =>
    rcases List.mem_cons.mp h with h1 | h2
    · subst h1; exact le_max_left _ _
    · exact le_trans (ih h2) (le_max_right _ _)

theorem isPrefixOf_self_append (y w : Str) : y.isPrefixOf (y ++ w) := by
  induction y with
  | nil =>
    rw [List.nil_append]
    cases w <;> rfl
  | cons a t ih => simp [List.isPrefixOf, ih]

theorem isPrefixOf_drop_chunks (x y z w : Str) (k : Nat) (hk : x.length = k) :
    y.isPrefixOf ((((x ++ y) ++ z) ++ w).drop k) := by
  subst hk
  have h1 : ((x ++ y) ++ z) ++ w = x ++ (y ++ (z ++ w)) := by
    simp [List.append_assoc]
  rw [h1, List.drop_left]
  exact isPrefixOf_self_append y (z ++ w)

/-- C7: amended alignment-column property.  When assignment alignment is
enabled, a maximal run of consecutive assignment nodes (preceded and
followed by non-assignment context) is rewritten by alignGroup exactly
when the run has two or more members, and a run of size one is returned
verbatim; within a rewritten group, every written assignment operator
begins at 1-indexed column 2 + max(len(trim(name))) in the default
space-separated modes, and at column 1 + max(len(trim(name))) only in
the no_space mode — not at 1 + max universally as the claim states. -/
theorem align_assignments_operator_columns
    (cfg : FormatterConfig) (pre run post : List Node)
    (hen : cfg.alignAssignments = true)
    (hpre : ∀ x, pre.getLast? = some x → x.type ≠ NodeAssignment)
    (hrun : ∀ n ∈ run, n.type = NodeAssignment)
    (hne : run ≠ [])
    (hpost : ∀ x, post.head? = some x → x.type ≠ NodeAssignment)
    (hname : ∀ n ∈ run, trimRightAny n.fields.varName [' '] ≠ []) :
    AlignAssignmentsFormat cfg (pre ++ run ++ post)
      = alignFull cfg.assignmentSpacing pre
        ++ (if run.length > 1 then alignGroup run cfg.assignmentSpacing else run)
        ++ alignFull cfg.assignmentSpacing post
    ∧ ∀ m ∈ alignGroup run cfg.assignmentSpacing,
        opBeginsAtCol (writeNodeText m) m.fields.assignOp
          ((if cfg.assignmentSpacing = ("no_space").toList then 1 else 2)
            + ((run.map (fun n => (trimRightAny n.fields.varName [' ']).length)).foldr max 0)) := by
  constructor
  · have h0 : AlignAssignmentsFormat cfg (pre ++ run ++ post)
        = alignFull cfg.assignmentSpacing (pre ++ run ++ post) := by
      simp [AlignAssignmentsFormat, hen, alignFull]
    rw [h0, List.append_assoc,
      alignFull_append cfg.assignmentSpacing pre.length pre le_rfl hpre (run ++ post),
      alignFull_run cfg.assignmentSpacing run post hrun hne hpost]
    exact (List.append_assoc _ _ _).symm
  · intro m hm
    simp only [alignGroup] at hm
    rcases List.mem_map.mp hm with ⟨n, hn, rfl⟩
    have htype := hrun n hn
    have hnm := hname n hn
    set M := (run.map (fun n => (trimRightAny n.fields.varName [' ']).length)).foldr max 0 with hM
    have hlen : (trimRightAny n.fields.varName [' ']).length ≤ M := by
      rw [hM]
      exact foldrMax_ge_of_mem (List.mem_map_of_mem _ hn)
    obtain ⟨t, ln, r0, cs, fl⟩ := n
    simp only [Node.type] at htype
    subst htype
    simp only [Node.fields] at hnm hlen
    by_cases hsp : cfg.assignmentSpacing = ("no_space").toList
    · rw [if_pos hsp]
      simp only [Node.clone, Node.setRaw, Node.fields, writeNodeText,
        opBeginsAtCol, if_pos hsp]
      have hraw : (trimRightAny fl.varName [' ']
            ++ List.replicate (M - (trimRightAny fl.varName [' ']).length) ' ')
          ++ fl.assignOp ++ (if fl.varValue ≠ [] then fl.varValue else []) ≠ [] := by
        intro hcontra
        rw [List.append_eq_nil, List.append_eq_nil, List.append_eq_nil] at hcontra
        exact hnm hcontra.1.1.1
      rw [if_pos hraw]
      have hcol : 1 + M - 1
          = (trimRightAny fl.varName [' ']
              ++ List.replicate (M - (trimRightAny fl.varName [' ']).length) ' ').length := by
        simp only [List.length_append, List.length_replicate]
        omega
      rw [hcol]
      exact isPrefixOf_drop_chunks _ _ _ _ _ rfl
    · rw [if_neg hsp]
      simp only [Node.clone, Node.setFieldsVarName, Node.setRaw, Node.fields,
        writeNodeText, reconstructFields, writeAssignmentF, opBeginsAtCol, if_neg hsp]
      rw [if_neg (show ¬(([] : Str) ≠ []) from not_not_intro rfl)]
      have hcol : 2 + M - 1
          = ((trimRightAny fl.varName [' ']
              ++ List.replicate (M - (trimRightAny fl.varName [' ']).length) ' ') ++ [' ']).length := by
        simp only [List.length_append, List.length_replicate, List.length_cons,
          List.length_nil]
        omega
      rw [hcol]
      exact isPrefixOf_drop_chunks _ _ _ _ _ rfl

theorem align_assignments_operator_columns_witness :
    AlignAssignmentsFormat defaultConfig
        ([] ++ Parse (("A := 1\nLONGNAME := 2\n").toList) ++ [])
      = alignFull defaultConfig.assignmentSpacing []
        ++ (if (Parse (("A := 1\nLONGNAME := 2\n").toList)).length > 1
            then alignGroup (Parse (("A := 1\nLONGNAME := 2\n").toList))
              defaultConfig.assignmentSpacing
            else Parse (("A := 1\nLONGNAME := 2\n").toList))
        ++ alignFull defaultConfig.assignmentSpacing []
    ∧ ∀ m ∈ alignGroup (Parse (("A := 1\nLONGNAME := 2\n").toList))
        defaultConfig.assignmentSpacing,
        opBeginsAtCol (writeNodeText m) m.fields.assignOp
          ((if defaultConfig.assignmentSpacing = ("no_space").toList then 1 else 2)
            + (((Parse (("A := 1\nLONGNAME := 2\n").toList)).map
                (fun n => (trimRightAny n.fields.varName [' ']).length)).foldr max 0)) :=
  align_assignments_operator_columns defaultConfig []
    (Parse (("A := 1\nLONGNAME := 2\n").toList)) []
    (by decide) (by simp) (by decide) (by decide) (by simp) (by decide)

/-! ### C8 — backslash alignment columns -/

/-- The continuation lines of a raw text (physical lines whose
whitespace-trimmed form ends in a backslash). -/
def contLinesOf (raw : Str) : List Str :=
  (splitOnNL raw).filter (fun l => ("\\").toList.isSuffixOf (trimRightAny l spTab))

/-- 1-indexed columns of the trailing backslashes of a raw text. -/
def backslashCols (raw : Str) : List Nat :=
  (contLinesOf raw).map (fun l => (trimRightAny l spTab).length)

/-- C8 counterexample: with a fixed configured column (10) and one
continuation line whose content overruns it, the overlong line keeps a
single space before its backslash while the short line is padded to
the column, so the node's trailing backslashes do not all sit in the
same column. -/
theorem backslash_columns_differ_on_overrun :
    ((BackslashAlignFormat { defaultConfig with backslashColumn := 10 }
        (Parse (("aaaaaaaaaaaaaaaaaaaa x \\\nbb \\\nc\n").toList))).headI).raw
      = ("aaaaaaaaaaaaaaaaaaaa x \\\nbb       \\\nc").toList
    ∧ backslashCols (("aaaaaaaaaaaaaaaaaaaa x \\\nbb       \\\nc").toList) = [24, 10]
    ∧ ¬ (backslashCols (("aaaaaaaaaaaaaaaaaaaa x \\\nbb       \\\nc").toList)).Pairwise
          (fun x y => x = y) := by
  refine ⟨by decide, by decide, by decide⟩

theorem splitOnNL_ne_nil (s : Str) : splitOnNL s ≠ [] := by
  cases s with
  | nil => simp [splitOnNL]
  | cons c rest =>
    simp only [splitOnNL]
    split
    · simp
    · split <;> simp

theorem splitOnNL_no_nl (s : Str) (h : '\n' ∉ s) : splitOnNL s = [s] := by
  induction s with
  | nil => rfl
  | cons c rest ih =>
    have hc : ¬(c = '\n') := fun hcc => h (hcc ▸ List.mem_cons_self c rest)
    have hr : '\n' ∉ rest := fun hm => h (List.mem_cons_of_mem c hm)
    simp only [splitOnNL, ih hr]
    rw [if_neg hc]

theorem splitOnNL_prepend_line (x s : Str) (h : '\n' ∉ x) :
    splitOnNL (x ++ '\n' :: s) = x :: splitOnNL s := by
  induction x with
  | nil => simp [splitOnNL]
  | cons c t ih =>
    have hc : ¬(c = '\n') := fun hcc => h (hcc ▸ List.mem_cons_self c t)
    have ht : '\n' ∉ t := fun hm => h (List.mem_cons_of_mem c hm)
    simp only [List.cons_append, splitOnNL, List.append_eq, ih ht]
    rw [if_neg hc]

theorem splitOnNL_joinSep (ls : List Str) (hne : ls ≠ [])
    (h : ∀ l ∈ ls, '\n' ∉ l) :
    splitOnNL (joinSep nl ls) = ls := by
  induction ls with
  | nil => exact absurd rfl hne
  | cons x rest ih =>
    cases rest with
    | nil =>
      simp only [joinSep]
      exact splitOnNL_no_nl x (h x (List.mem_cons_self x []))
    | cons y rest2 =>
      have hx : '\n' ∉ x := h x (List.mem_cons_self x _)
      have hrest : ∀ l ∈ y :: rest2, '\n' ∉ l := fun l hl => h l (List.mem_cons_of_mem x hl)
      have hjoin : joinSep nl (x :: y :: rest2) = x ++ '\n' :: joinSep nl (y :: rest2) := by
        simp [joinSep, nl]
      rw [hjoin, splitOnNL_prepend_line x _ hx, ih (by simp) hrest]

theorem mem_splitOnNL_no_nl (s : Str) : ∀ l ∈ splitOnNL s, '\n' ∉ l := by
  induction s with
  | nil =>
    intro l hl
    simp [splitOnNL] at hl
    subst hl
    simp
  | cons c rest ih =>
    intro l hl
    simp only [splitOnNL] at hl
    by_cases hc : c = '\n'
    · rw [if_pos hc] at hl
      rcases List.mem_cons.mp hl with rfl | hl2
      · simp
      · exact ih l hl2
    · rw [if_neg hc] at hl
      cases hr : splitOnNL rest with
      | nil => exact absurd hr (splitOnNL_ne_nil rest)
      | cons hh tt =>
        simp only [hr] at hl
        rcases List.mem_cons.mp hl with rfl | hl2
        · intro hmem
          rcases List.mem_cons.mp hmem with h1 | h2
          · exact hc h1.symm
          · exact ih hh (by rw [hr]; exact List.mem_cons_self hh tt) h2
        · exact ih l (by rw [hr]; exact List.mem_cons_of_mem hh hl2)

theorem mem_of_mem_trimRightAny {c : Char} {s cutset : Str}
    (h : c ∈ trimRightAny s cutset) : c ∈ s := by
  unfold trimRightAny dropTrailing at h
  rw [List.mem_reverse] at h
  have h2 := (List.dropWhile_sublist _).subset h
  rwa [List.mem_reverse] at h2

theorem no_nl_contContent {l : Str} (h : '\n' ∉ l) : '\n' ∉ contContent l := by
  intro hmem
  unfold contContent at hmem
  exact h (mem_of_mem_trimRightAny
    (List.dropLast_subset _ (mem_of_mem_trimRightAny hmem)))

theorem trimRightAny_append_keep (x : Str) (c : Char) (hc : c ∉ spTab) :
    trimRightAny (x ++ [c]) spTab = x ++ [c] := by
  unfold trimRightAny dropTrailing
  have h1 : (x ++ [c]).reverse = c :: x.reverse := by simp
  rw [h1]
  simp [List.dropWhile_cons, hc]

theorem bs_isSuffixOf_append (x : Str) :
    ("\\").toList.isSuffixOf (x ++ [ '\\' ]) = true := by
  have h0 : ("\\").toList = [ '\\' ] := rfl
  rw [h0]
  simp [List.isSuffixOf, List.isPrefixOf]

/-- One step of the line-rewriting loop in alignBackslashes, at a fixed
target column. -/
def bsLineRW (T : Int) (line : Str) : Str :=
  if ("\\").toList.isSuffixOf (trimRightAny line spTab) then
    contContent line
      ++ List.replicate (max (T - 1 - ((contContent line).length : Int)) 1).toNat ' '
      ++ [ '\\' ]
  else line

theorem bsLineRW_no_nl (T : Int) (l : Str) (h : '\n' ∉ l) : '\n' ∉ bsLineRW T l := by
  unfold bsLineRW
  by_cases hp : ("\\").toList.isSuffixOf (trimRightAny l spTab) = true
  · rw [if_pos hp]
    intro hmem
    rcases List.mem_append.mp hmem with h1 | h2
    · rcases List.mem_append.mp h1 with h3 | h4
      · exact no_nl_contContent h h3
      · exact absurd (List.eq_of_mem_replicate h4) (by decide)
    · simp at h2
  · rw [if_neg hp]
    exact h

theorem bsLineRW_keep (T : Int) (l : Str)
    (hp : ("\\").toList.isSuffixOf (trimRightAny l spTab) = true) :
    ("\\").toList.isSuffixOf (trimRightAny (bsLineRW T l) spTab) = true := by
  unfold bsLineRW
  rw [if_pos hp, trimRightAny_append_keep _ '\\' (by decide)]
  exact bs_isSuffixOf_append _

theorem bsLineRW_filter (T : Int) (ls : List Str) :
    (ls.map (bsLineRW T)).filter
        (fun l => ("\\").toList.isSuffixOf (trimRightAny l spTab))
      = (ls.filter (fun l => ("\\").toList.isSuffixOf (trimRightAny l spTab))).map
          (bsLineRW T) := by
  rw [List.filter_map]
  congr 1
  apply List.filter_congr
  intro l hl
  by_cases hp : ("\\").toList.isSuffixOf (trimRightAny l spTab) = true
  · simp only [Function.comp]
    rw [bsLineRW_keep T l hp, hp]
  · simp only [Function.comp]
    have hskip : bsLineRW T l = l := by
      unfold bsLineRW
      rw [if_neg hp]
    rw [hskip]

theorem bsLineRW_cols (T : Int) (ls : List Str) (h : ∀ l ∈ ls, '\n' ∉ l) :
    backslashCols (joinSep nl (ls.map (bsLineRW T)))
      = (ls.filter (fun l => ("\\").toList.isSuffixOf (trimRightAny l spTab))).map
          (fun l => (contContent l).length
            + (max (T - 1 - ((contContent l).length : Int)) 1).toNat + 1) := by
  cases ls with
  | nil => rfl
  | cons x rest =>
    unfold backslashCols contLinesOf
    rw [splitOnNL_joinSep _ (by simp) (fun l hl => by
      rcases List.mem_map.mp hl with ⟨l0, hl0, rfl⟩
      exact bsLineRW_no_nl T l0 (h l0 hl0))]
    rw [bsLineRW_filter, List.map_map]
    apply List.map_congr_left
    intro l hl
    have hp : ("\\").toList.isSuffixOf (trimRightAny l spTab) = true :=
      (List.mem_filter.mp hl).2
    simp only [Function.comp]
    unfold bsLineRW
    rw [if_pos hp, trimRightAny_append_keep _ '\\' (by decide)]
    simp only [List.length_append, List.length_replicate, List.length_cons,
      List.length_nil]

theorem zip_map_self_bound {f : Nat → Nat} (h : ∀ a, a + 2 ≤ f a) :
    ∀ (l : List Nat), ∀ q ∈ (l.map f).zip l, q.2 + 2 ≤ q.1 := by
  intro l
  induction l with
  | nil => intro q hq; simp at hq
  | cons a t ih =>
    intro q hq
    simp only [List.map_cons, List.zip_cons_cons] at hq
    rcases List.mem_cons.mp hq with rfl | hq2
    · exact h a
    · exact ih q hq2

/-- C8: amended backslash-column property.  With continuation alignment
enabled, a node whose raw text has continuation lines is rewritten so
that the 1-indexed column of each trailing backslash is
max(target, content_width + 2), where target is the configured column,
or the longest continuation content width plus two — not plus one as
claimed — when the configured column is zero (auto).  In auto mode all
backslashes therefore share one column; in fixed mode a line whose
content overruns the configured column keeps exactly one space before
its backslash and escapes the shared column; in every mode at least one
space separates content from backslash. -/
theorem backslash_alignment_columns
    (cfg : FormatterConfig) (n : Node)
    (hen : cfg.alignBackslashContinuations = true)
    (hc : rawHasContinuation n.raw = true) :
    BackslashAlignFormat cfg [n] = [alignBackslashes n cfg.backslashColumn]
    ∧ backslashCols (alignBackslashes n cfg.backslashColumn).raw
        = ((contLinesOf n.raw).map (fun l => (contContent l).length)).map
            (fun (w : Nat) => (max (if cfg.backslashColumn = 0
                then ((((contLinesOf n.raw).map
                    (fun l => (contContent l).length)).foldr max 0 : Nat) : Int) + 2
                else cfg.backslashColumn) ((w : Int) + 2)).toNat)
    ∧ (cfg.backslashColumn = 0 →
        backslashCols (alignBackslashes n cfg.backslashColumn).raw
          = List.replicate (contLinesOf n.raw).length
              (((contLinesOf n.raw).map (fun l => (contContent l).length)).foldr max 0 + 2))
    ∧ (∀ q ∈ (backslashCols (alignBackslashes n cfg.backslashColumn).raw).zip
          ((contLinesOf n.raw).map (fun l => (contContent l).length)),
        q.2 + 2 ≤ q.1) := by
  set T : Int := (if cfg.backslashColumn = 0
      then ((((contLinesOf n.raw).map
          (fun l => (contContent l).length)).foldr max 0 : Nat) : Int) + 2
      else cfg.backslashColumn) with hT
  have hraw : (alignBackslashes n cfg.backslashColumn).raw
      = joinSep nl ((splitOnNL n.raw).map (bsLineRW T)) := by
    rw [hT]
    cases n
    rfl
  have hmain : backslashCols (alignBackslashes n cfg.backslashColumn).raw
      = ((contLinesOf n.raw).map (fun l => (contContent l).length)).map
          (fun (w : Nat) => (max T ((w : Int) + 2)).toNat) := by
    rw [hraw, bsLineRW_cols T (splitOnNL n.raw) (mem_splitOnNL_no_nl n.raw)]
    have hfc : (splitOnNL n.raw).filter
        (fun l => ("\\").toList.isSuffixOf (trimRightAny l spTab)) = contLinesOf n.raw := rfl
    rw [hfc, List.map_map]
    apply List.map_congr_left
    intro l hl
    simp only [Function.comp]
    omega
  refine ⟨?_, hmain, ?_, ?_⟩
  · simp [BackslashAlignFormat, hen, hc]
  · intro h0
    rw [hmain]
    refine List.eq_replicate_iff.mpr ⟨by simp, ?_⟩
    intro b hb
    rcases List.mem_map.mp hb with ⟨w, hw, rfl⟩
    have hwb : w ≤ ((contLinesOf n.raw).map
        (fun l => (contContent l).length)).foldr max 0 := foldrMax_ge_of_mem hw
    have hT0 : T = ((((contLinesOf n.raw).map
        (fun l => (contContent l).length)).foldr max 0 : Nat) : Int) + 2 := by
      rw [hT, if_pos h0]
    rw [hT0]
    omega
  · rw [hmain]
    exact zip_map_self_bound (fun a => by omega) _

theorem backslash_alignment_columns_witness :
    BackslashAlignFormat { defaultConfig with backslashColumn := 0 }
        [(Parse (("FOO = a \\\n  bar\n").toList)).headI]
      = [alignBackslashes ((Parse (("FOO = a \\\n  bar\n").toList)).headI)
          ({ defaultConfig with backslashColumn := 0 } : FormatterConfig).backslashColumn]
    ∧ backslashCols (alignBackslashes ((Parse (("FOO = a \\\n  bar\n").toList)).headI)
          ({ defaultConfig with backslashColumn := 0 } : FormatterConfig).backslashColumn).raw
        = ((contLinesOf ((Parse (("FOO = a \\\n  bar\n").toList)).headI).raw).map
              (fun l => (contContent l).length)).map
            (fun (w : Nat) => (max (if ({ defaultConfig with backslashColumn := 0 }
                  : FormatterConfig).backslashColumn = 0
                then ((((contLinesOf ((Parse (("FOO = a \\\n  bar\n").toList)).headI).raw).map
                    (fun l => (contContent l).length)).foldr max 0 : Nat) : Int) + 2
                else ({ defaultConfig with backslashColumn := 0 }
                  : FormatterConfig).backslashColumn) ((w : Int) + 2)).toNat)
    ∧ (({ defaultConfig with backslashColumn := 0 } : FormatterConfig).backslashColumn = 0 →
        backslashCols (alignBackslashes ((Parse (("FOO = a \\\n  bar\n").toList)).headI)
            ({ defaultConfig with backslashColumn := 0 } : FormatterConfig).backslashColumn).raw
          = List.replicate (contLinesOf ((Parse (("FOO = a \\\n  bar\n").toList)).headI).raw).length
              (((contLinesOf ((Parse (("FOO = a \\\n  bar\n").toList)).headI).raw).map
                  (fun l => (contContent l).length)).foldr max 0 + 2))
    ∧ (∀ q ∈ (backslashCols (alignBackslashes ((Parse (("FOO = a \\\n  bar\n").toList)).headI)
            ({ defaultConfig with backslashColumn := 0 } : FormatterConfig).backslashColumn).raw).zip
          ((contLinesOf ((Parse (("FOO = a \\\n  bar\n").toList)).headI).raw).map
              (fun l => (contContent l).length)),
        q.2 + 2 ≤ q.1) :=
  backslash_alignment_columns { defaultConfig with backslashColumn := 0 }
    ((Parse (("FOO = a \\\n  bar\n").toList)).headI) (by decide) (by decide)

/-! ### C6 — rule frame conditions and node identity -/

/-- A node value tagged with an abstract heap address, to model the Go
pointer identity the claim speaks about.  Node.Clone in Go allocates,
so a clone's address is fresh — modelled by drawing addresses from a
counter kept above every live address. -/
structure NodeA where
  val : Node
  addr : Nat
deriving DecidableEq

instance : Inhabited NodeA := ⟨⟨default, 0⟩⟩

/-- trimNode in the address model: the Go function clones its argument
before editing, so the result lives at a fresh address even when the
trim changes nothing. -/
def trimNodeA (n : NodeA) (counter : Nat) : NodeA × Nat :=
  (⟨trimNode n.val, counter⟩, counter + 1)

/-- Address-threading map over a node list. -/
def mapAlloc (f : NodeA → Nat → NodeA × Nat) : List NodeA → Nat → List NodeA × Nat
  | [], c => ([], c)
  | n :: rest, c =>
    let r := f n c
    let r2 := mapAlloc f rest r.2
    (r.1 :: r2.1, r2.2)

/-- TrailingWhitespace.Format in the address model. -/
def TrailingWhitespaceFormatA (cfg : FormatterConfig) (nodes : List NodeA)
    (counter : Nat) : List NodeA × Nat :=
  if ¬ cfg.trimTrailingWhitespace then (nodes, counter)
  else mapAlloc trimNodeA nodes counter

/-- C6 counterexample: the trailing-whitespace rule clones every node
it visits, so an input node the rule does not change (here a clean
comment) reappears value-unchanged but at a fresh address — not "by
identity (the same node)" as the claim states.  The input node lives
at address 0 and the allocation counter starts at 1. -/
theorem untouched_node_not_returned_by_identity :
    ((TrailingWhitespaceFormatA defaultConfig
        [⟨Node.mk NodeComment 1 (("# clean").toList) []
            { text := ("clean").toList, prefixStr := ("#").toList }, 0⟩] 1).1.headI).val
      = Node.mk NodeComment 1 (("# clean").toList) []
          { text := ("clean").toList, prefixStr := ("#").toList }
    ∧ ((TrailingWhitespaceFormatA defaultConfig
        [⟨Node.mk NodeComment 1 (("# clean").toList) []
            { text := ("clean").toList, prefixStr := ("#").toList }, 0⟩] 1).1.headI).addr
      ≠ 0 := by
  refine ⟨by decide, by decide⟩

/-- The trailing-blank-node shrink loop returns a sublist of its
input. -/
theorem dropTrailing2_sublist (ns : List Node) :
    List.Sublist (FinalNewlineFormat.dropTrailing2 ns) ns := by
  unfold FinalNewlineFormat.dropTrailing2
  have h := (List.dropWhile_sublist
    (fun n => n.type = NodeBlankLine) (l := ns.reverse)).reverse
  simpa using h

/-- The blank-run counting loop returns a sublist of its input. -/
theorem blankLinesGo_sublist (maxB : Int) :
    ∀ (bc : Nat) (ns : List Node), List.Sublist (blankLinesGo maxB bc ns) ns := by
  intro bc ns
  induction ns generalizing bc with
  | nil => simp [blankLinesGo]
  | cons n rest ih =>
    simp only [blankLinesGo]
    by_cases ht : n.type = NodeBlankLine
    · rw [if_pos ht]
      by_cases hle : ((bc + 1 : Nat) : Int) ≤ maxB
      · rw [if_pos hle]
        exact (ih (bc + 1)).cons₂ n
      · rw [if_neg hle]
        exact (ih (bc + 1)).cons n
    · rw [if_neg ht]
      exact (ih 0).cons₂ n

/-- C6: amended frame conditions.  Every rule is a pure function of its
input: a rule disabled by its configuration flag returns the input list
itself, BannerPreserve always returns the input itself, the two
node-dropping rules return sublists (so every surviving node is an
input node by value), and the per-node rules are positional maps that
return any node they do not rewrite unchanged by value at its position.
Pointer identity of untouched nodes, as the claim demands, does not
hold: the rules clone before editing, so even an unchanged node comes
back as a fresh allocation (see the counterexample). -/
theorem rule_frame_conditions :
    ∀ (cfg : FormatterConfig) (nodes : List Node),
      TrailingWhitespaceFormat { cfg with trimTrailingWhitespace := false } nodes = nodes
    ∧ FinalNewlineFormat { cfg with insertFinalNewline := false } nodes = nodes
    ∧ BlankLinesFormat { cfg with maxBlankLines := -1 } nodes = nodes
    ∧ AssignmentSpacingFormat { cfg with assignmentSpacing := ("preserve").toList } nodes = nodes
    ∧ BackslashAlignFormat { cfg with alignBackslashContinuations := false } nodes = nodes
    ∧ CommentSpacingFormat { cfg with spaceAfterComment := false } nodes = nodes
    ∧ ConditionalIndentFormat { cfg with indentConditionals := false } nodes = nodes
    ∧ AlignAssignmentsFormat { cfg with alignAssignments := false } nodes = nodes
    ∧ BannerPreserveFormat cfg nodes = nodes
    ∧ List.Sublist (FinalNewlineFormat cfg nodes) nodes
    ∧ List.Sublist (BlankLinesFormat cfg nodes) nodes
    ∧ (∀ i : Nat,
        (TrailingWhitespaceFormat { cfg with trimTrailingWhitespace := true } nodes)[i]?
          = (nodes[i]?).map trimNode)
    ∧ (∀ i : Nat,
        (CommentSpacingFormat { cfg with spaceAfterComment := true } nodes)[i]?
          = (nodes[i]?).map (fun n =>
              if n.type = NodeComment ∧ shouldNormalize n then normalizeComment n else n))
    ∧ (∀ i : Nat,
        (BackslashAlignFormat { cfg with alignBackslashContinuations := true } nodes)[i]?
          = (nodes[i]?).map (fun n =>
              if ¬ rawHasContinuation n.raw then n
              else alignBackslashes n cfg.backslashColumn)) := by
  intro cfg nodes
  refine ⟨?_, ?_, ?_, ?_, ?_, ?_, ?_, ?_, rfl, ?_, ?_, ?_, ?_, ?_⟩
  · simp [TrailingWhitespaceFormat]
  · simp [FinalNewlineFormat]
  · simp [BlankLinesFormat]
  · simp [AssignmentSpacingFormat]
  · simp [BackslashAlignFormat]
  · simp [CommentSpacingFormat]
  · simp [ConditionalIndentFormat]
  · simp [AlignAssignmentsFormat]
  · simp only [FinalNewlineFormat]
    by_cases h1 : ¬ cfg.insertFinalNewline
    · rw [if_pos h1]
    · rw [if_neg h1]
      by_cases h2 : nodes = []
      · rw [if_pos h2]
      · rw [if_neg h2]
        exact dropTrailing2_sublist nodes
  · simp only [BlankLinesFormat]
    by_cases h1 : cfg.maxBlankLines < 0
    · rw [if_pos h1]
    · rw [if_neg h1]
      exact blankLinesGo_sublist cfg.maxBlankLines 0 nodes
  · intro i
    simp [TrailingWhitespaceFormat]
  · intro i
    simp [CommentSpacingFormat]
  · intro i
    simp [BackslashAlignFormat]

/-! ### C4 — the unified diff is empty exactly on equal inputs -/

theorem flatten_splitAfterNL (s : Str) : (splitAfterNL s).flatten = s := by
  induction s with
  | nil => rfl
  | cons c rest ih =>
    simp only [splitAfterNL]
    by_cases hc : c = '\n'
    · rw [if_pos hc, List.flatten_cons, ih, hc]
      rfl
    · rw [if_neg hc]
      cases hr : splitAfterNL rest with
      | nil =>
        rw [hr] at ih
        simp at ih
        simp [ih]
      | cons hh tt =>
        rw [hr] at ih
        simp only [List.flatten_cons]
        rw [List.cons_append]
        rw [List.flatten_cons] at ih
        rw [ih]

theorem flatten_splitLinesDiff (s : Str) : (splitLinesDiff s).flatten = s := by
  unfold splitLinesDiff
  by_cases h0 : s = []
  · rw [if_pos h0, h0]
    rfl
  · rw [if_neg h0]
    by_cases hl : (splitAfterNL s).getLast? = some []
    · rw [if_pos hl]
      have hne : splitAfterNL s ≠ [] := by
        intro hcontra
        rw [hcontra] at hl
        simp at hl
      have hdec := List.dropLast_append_getLast hne
      have hflat := flatten_splitAfterNL s
      rw [← hdec, List.flatten_append] at hflat
      have hlast : (splitAfterNL s).getLast hne = [] := by
        have := List.getLast?_eq_getLast (splitAfterNL s) hne
        rw [this] at hl
        injection hl
      rw [hlast] at hflat
      simpa using hflat
    · rw [if_neg hl]
      exact flatten_splitAfterNL s

theorem splitLinesDiff_inj {s t : Str}
    (h : splitLinesDiff s = splitLinesDiff t) : s = t := by
  have h1 := flatten_splitLinesDiff s
  have h2 := flatten_splitLinesDiff t
  rw [← h1, ← h2, h]

theorem slideDiag_ge (a b : List Str) (k : Int) :
    ∀ (fuel x : Nat), x ≤ slideDiag a b k fuel x := by
  intro fuel
  induction fuel with
  | zero => intro x; exact le_rfl
  | succ f ih =>
    intro x
    simp only [slideDiag]
    split
    · exact le_trans (Nat.le_succ x) (ih (x + 1))
    · exact le_rfl

theorem slideDiag_le (a b : List Str) (k : Int) :
    ∀ (fuel x : Nat), slideDiag a b k fuel x ≤ max x a.length := by
  intro fuel
  induction fuel with
  | zero => intro x; exact le_max_left _ _
  | succ f ih =>
    intro x
    simp only [slideDiag]
    split
    · rename_i hcond
      have h1 : x < a.length := hcond.1
      exact le_trans (ih (x + 1)) (by omega)
    · exact le_max_left _ _

theorem slideDiag_all (a b : List Str) (k : Int) :
    ∀ (fuel x : Nat), ∀ i : Nat, x ≤ i → i < slideDiag a b k fuel x →
      i < a.length ∧ (i : Int) - k < (b.length : Int)
        ∧ lineAt a (i : Int) = lineAt b ((i : Int) - k) := by
  intro fuel
  induction fuel with
  | zero =>
    intro x i h1 h2
    simp only [slideDiag] at h2
    omega
  | succ f ih =>
    intro x i h1 h2
    simp only [slideDiag] at h2
    by_cases hcond : x < a.length ∧ (x : Int) - k < (b.length : Int)
        ∧ lineAt a (x : Int) = lineAt b ((x : Int) - k)
    · rw [if_pos hcond] at h2
      by_cases hxi : i = x
      · subst hxi
        exact hcond
      · exact ih (x + 1) i (by omega) h2
    · rw [if_neg hcond] at h2
      omega

theorem vSet_size (v : Array Nat) (total : Nat) (k : Int) (x : Nat) :
    (vSet v total k x).size = v.size := by
  unfold vSet
  simp

theorem vGet_vSet_eq (v : Array Nat) (total : Nat) (k : Int) (x : Nat)
    (h2 : (k + total).toNat < v.size) :
    vGet (vSet v total k x) total k = x := by
  unfold vGet vSet
  rw [Array.getD_eq_get?, Array.getD_get?_setD]
  rw [if_pos h2]

theorem vGet_vSet_ne (v : Array Nat) (total : Nat) (k k2 : Int) (x : Nat)
    (h1 : 0 ≤ k + total) (h2 : 0 ≤ k2 + total) (hne : k ≠ k2) :
    vGet (vSet v total k x) total k2 = vGet v total k2 := by
  have hidx : (k + total).toNat ≠ (k2 + total).toNat := by omega
  unfold vGet vSet
  unfold Array.setD
  split
  · rw [Array.getD_eq_get?, Array.getD_eq_get?]
    rw [Array.getElem?_set_ne _ _ _ hidx]
  · rfl

theorem vGet_mkArray (sz total : Nat) (k : Int) :
    vGet (Array.mkArray sz 0) total k = 0 := by
  unfold vGet
  unfold Array.getD
  split
  · rw [Array.get_eq_getElem, Array.getElem_mkArray]
  · rfl

/-- The per-round invariant of the myers inner loop: after round d the
stored endpoint on diagonal -d+2j is at least j, so the search is
guaranteed to reach the end corner by round n+m. -/
theorem kLoop_invariant (a b : List Str) (total d : Nat)
    (htot : total = a.length + b.length) (hd : d ≤ total) :
    ∀ (fuel : Nat), ∀ (i : Nat) (v : Array Nat),
      fuel + i = d + 1 →
      v.size = 2 * total + 1 →
      (∀ j : Nat, j + 1 ≤ d → (j : Nat) ≤ vGet v total (-(d : Int) + 1 + 2 * j)) →
      (∀ j : Nat, j < i → (j : Nat) ≤ vGet v total (-(d : Int) + 2 * j)) →
      (d = total → i ≤ a.length) →
      (kLoop a b total d fuel i v).1 = true
        ∨ ((kLoop a b total d fuel i v).1 = false
            ∧ (kLoop a b total d fuel i v).2.size = 2 * total + 1
            ∧ (∀ j : Nat, j ≤ d →
                (j : Nat) ≤ vGet (kLoop a b total d fuel i v).2 total (-(d : Int) + 2 * j))
            ∧ d ≠ total) := by
  intro fuel
  induction fuel with
  | zero =>
    intro i v hfuel hsize hprev hcur hn
    right
    refine ⟨rfl, hsize, ?_, ?_⟩
    · intro j hj
      exact hcur j (by omega)
    · intro hdt
      have h1 := hn hdt
      omega
  | succ f ih =>
    intro i v hfuel hsize hprev hcur hn
    have hile : i ≤ d := by omega
    simp only [kLoop]
    rw [if_neg (by omega : ¬ i > d)]
    set k : Int := -(d : Int) + 2 * (i : Int) with hkdef
    set x0 : Nat := (if moveDown v total (d : Int) k then vGet v total (k + 1)
        else vGet v total (k - 1) + 1) with hx0def
    set x : Nat := slideDiag a b k (a.length + 1) x0 with hxdef
    set v2 : Array Nat := vSet v total k x with hv2def
    have hx0ge : (i : Nat) ≤ x0 := by
      rw [hx0def]
      split
      · rename_i hmv
        by_cases hi0 : i = 0
        · simp [hi0]
        · have hmv2 : k ≠ (d : Int) ∧ vGet v total (k - 1) < vGet v total (k + 1) := by
            simp only [moveDown, decide_eq_true_eq] at hmv
            rcases hmv with h1 | h2
            · exact absurd h1 (by omega)
            · exact h2
          have hid : i + 1 ≤ d := by
            rcases hmv2 with ⟨hne2, h3⟩
            omega
          have hp := hprev i hid
          have hkk : k + 1 = -(d : Int) + 1 + 2 * (i : Int) := by omega
          rw [hkk]
          exact hp
      · rename_i hmv
        simp only [moveDown, decide_eq_true_eq] at hmv
        push_neg at hmv
        have hi1 : 1 ≤ i := by
          by_contra hcon
          exact absurd (by omega : k = -(d : Int)) hmv.1
        have hp := hprev (i - 1) (by omega)
        have hkk : k - 1 = -(d : Int) + 1 + 2 * ((i - 1 : Nat) : Int) := by
          have : ((i - 1 : Nat) : Int) = (i : Int) - 1 := by omega
          omega
        rw [hkk]
        omega
    have hxge : (i : Nat) ≤ x := le_trans hx0ge (by rw [hxdef]; exact slideDiag_ge a b k _ x0)
    split
    · left
      rfl
    · rename_i hsucc
      apply ih (i + 1) v2
      · omega
      · rw [hv2def, vSet_size]
        exact hsize
      · intro j hj
        rw [hv2def, vGet_vSet_ne v total k _ x (by omega) (by omega) (by omega)]
        exact hprev j hj
      · intro j hj
        by_cases hji : j = i
        · subst hji
          rw [hv2def, vGet_vSet_eq v total k x (by rw [hsize]; omega)]
          exact hxge
        · rw [hv2def, vGet_vSet_ne v total k _ x (by omega) (by omega) (by omega)]
          exact hcur j (by omega)
      · intro hdt
        by_contra hcon
        have hin : i = a.length := by
          have := hn hdt
          omega
        apply hsucc
        constructor
        · omega
        · omega

/-- The outer loop reaches a successful round no later than d = total. -/
theorem dLoop_reaches (a b : List Str) (total : Nat)
    (htot : total = a.length + b.length) :
    ∀ (fuel : Nat), ∀ (d : Nat) (v : Array Nat) (trace : List (Array Nat)),
      fuel + d = total + 1 →
      d ≤ total →
      v.size = 2 * total + 1 →
      (∀ j : Nat, j + 1 ≤ d → (j : Nat) ≤ vGet v total (-(d : Int) + 1 + 2 * j)) →
      ∃ d2 : Nat, d ≤ d2 ∧ d2 ≤ total ∧ ∃ trace2 : List (Array Nat),
        dLoop a b total fuel d v trace = backtrack trace2 a b d2 total := by
  intro fuel
  induction fuel with
  | zero =>
    intro d v trace hfuel hd hsize hprev
    exact absurd hd (by omega)
  | succ f ih =>
    intro d v trace hfuel hd hsize hprev
    simp only [dLoop]
    rw [if_neg (by omega : ¬ d > total)]
    have hk := kLoop_invariant a b total d htot hd (d + 1) 0 v (by omega) hsize hprev
      (fun j hj => absurd hj (by omega)) (fun _ => by omega)
    rcases hk with htrue | ⟨hfalse, hsize2, hinv2, hdne⟩
    · refine ⟨d, le_rfl, hd, trace ++ [v], ?_⟩
      rw [htrue]
      simp
    · have hd1 : d + 1 ≤ total := by omega
      have hprev2 : ∀ j : Nat, j + 1 ≤ d + 1 →
          (j : Nat) ≤ vGet (kLoop a b total d (d + 1) 0 v).2 total
            (-((d + 1 : Nat) : Int) + 1 + 2 * j) := by
        intro j hj
        have h2 := hinv2 j (by omega)
        have hkk : -((d + 1 : Nat) : Int) + 1 + 2 * (j : Int) = -(d : Int) + 2 * (j : Int) := by
          push_cast
          ring
        rw [hkk]
        exact h2
      obtain ⟨d2, hge, hle2, trace2, heq⟩ := ih (d + 1) (kLoop a b total d (d + 1) 0 v).2
        (trace ++ [v]) (by omega) hd1 hsize2 hprev2
      refine ⟨d2, by omega, hle2, trace2, ?_⟩
      rw [hfalse]
      simpa using heq

theorem eq_of_lineAt (a b : List Str) (hlen : a.length = b.length)
    (h : ∀ i : Nat, i < a.length → lineAt a (i : Int) = lineAt b (i : Int)) : a = b := by
  apply List.ext_getElem hlen
  intro i h1 h2
  have h3 := h i h1
  unfold lineAt at h3
  rw [Int.toNat_ofNat] at h3
  rw [List.getD_eq_getElem?_getD, List.getD_eq_getElem?_getD] at h3
  rw [List.getElem?_eq_getElem h1, List.getElem?_eq_getElem h2] at h3
  simpa using h3

/-- A successful zeroth round means the two line lists are equal. -/
theorem round0_eq (a b : List Str) (total : Nat)
    (h : (kLoop a b total 0 1 0 (Array.mkArray (2 * total + 1) 0)).1 = true) : a = b := by
  simp only [kLoop] at h
  rw [if_neg (by omega : ¬ (0 : Nat) > 0)] at h
  split at h
  · rename_i hC
    rw [vGet_mkArray] at h
    norm_num at h
    split at h
    · rename_i hC2
      have hle := slideDiag_le a b 0 (a.length + 1) 0
      have hall := slideDiag_all a b 0 (a.length + 1) 0
      have hXn : slideDiag a b 0 (a.length + 1) 0 = a.length := by omega
      have hmn : b.length ≤ a.length := by omega
      have hnm : a.length ≤ b.length := by
        by_contra hcon
        have h4 := hall b.length (by omega) (by omega)
        omega
      have heq : ∀ i : Nat, i < a.length → lineAt a (i : Int) = lineAt b (i : Int) := by
        intro i hi
        have h4 := hall i (by omega) (by omega)
        have h5 := h4.2.2
        rw [show ((i : Int) - 0) = (i : Int) from by ring] at h5
        exact h5
      exact eq_of_lineAt a b (by omega) heq
    · simp at h
  · rename_i hmv
    exact absurd (by simp [moveDown]) hmv

/-- On different line lists the search succeeds at some round between 1
and total. -/
theorem myers_success (a b : List Str) (hne : a ≠ b) :
    ∃ d2 : Nat, 1 ≤ d2 ∧ d2 ≤ a.length + b.length ∧ ∃ trace2 : List (Array Nat),
      myers a b = backtrack trace2 a b d2 (a.length + b.length) := by
  have htot0 : ¬ (a.length + b.length = 0) := by
    intro hc
    apply hne
    have ha : a = [] := List.eq_nil_of_length_eq_zero (by omega)
    have hb : b = [] := List.eq_nil_of_length_eq_zero (by omega)
    rw [ha, hb]
  simp only [myers]
  rw [if_neg htot0]
  simp only [dLoop]
  rw [if_neg (by omega : ¬ (0 : Nat) > a.length + b.length)]
  have hk0 := kLoop_invariant a b (a.length + b.length) 0 rfl (by omega) 1 0
    (Array.mkArray (2 * (a.length + b.length) + 1) 0) (by omega) (by simp)
    (fun j hj => absurd hj (by omega)) (fun j hj => absurd hj (by omega)) (fun _ => by omega)
  rcases hk0 with htrue | ⟨hfalse, hsize2, hinv2, hdne⟩
  · exact absurd (round0_eq a b (a.length + b.length) htrue) hne
  · rw [hfalse]
    simp only [Bool.false_eq_true, if_false]
    have hprev1 : ∀ j : Nat, j + 1 ≤ 1 →
        (j : Nat) ≤ vGet (kLoop a b (a.length + b.length) 0 1 0
            (Array.mkArray (2 * (a.length + b.length) + 1) 0)).2 (a.length + b.length)
          (-((1 : Nat) : Int) + 1 + 2 * j) := by
      intro j hj
      omega
    obtain ⟨d2, hge, hle2, trace2, heq⟩ := dLoop_reaches a b (a.length + b.length) rfl
      (a.length + b.length) 1 (kLoop a b (a.length + b.length) 0 1 0
        (Array.mkArray (2 * (a.length + b.length) + 1) 0)).2
      ([] ++ [Array.mkArray (2 * (a.length + b.length) + 1) 0]) (by omega) (by omega)
      hsize2 hprev1
    exact ⟨d2, hge, hle2, trace2, heq⟩

theorem diagBack_acc (px py : Int) :
    ∀ (fuel : Nat) (x y : Int) (acc : List Edit),
      ∃ tl, (diagBack px py fuel x y acc).2.2 = acc ++ tl := by
  intro fuel
  induction fuel with
  | zero =>
    intro x y acc
    exact ⟨[], by simp [diagBack]⟩
  | succ f ih =>
    intro x y acc
    simp only [diagBack]
    split
    · obtain ⟨tl, htl⟩ := ih (x - 1) (y - 1) (acc ++ [⟨editEqual, x - 1, y - 1⟩])
      exact ⟨[⟨editEqual, x - 1, y - 1⟩] ++ tl, by rw [htl]; simp⟩
    · exact ⟨[], by simp⟩

theorem diagRemaining_acc :
    ∀ (fuel : Nat) (x y : Int) (acc : List Edit),
      ∃ tl, diagRemaining fuel x y acc = acc ++ tl := by
  intro fuel
  induction fuel with
  | zero =>
    intro x y acc
    exact ⟨[], by simp [diagRemaining]⟩
  | succ f ih =>
    intro x y acc
    simp only [diagRemaining]
    split
    · obtain ⟨tl, htl⟩ := ih (x - 1) (y - 1) (acc ++ [⟨editEqual, x - 1, y - 1⟩])
      exact ⟨[⟨editEqual, x - 1, y - 1⟩] ++ tl, by rw [htl]; simp⟩
    · exact ⟨[], by simp⟩

theorem backtrackSteps_acc (trace : List (Array Nat)) (total : Nat) :
    ∀ (step : Nat) (x y : Int) (acc : List Edit),
      ∃ tl, (backtrackSteps trace total step x y acc).2.2 = acc ++ tl := by
  intro step
  induction step with
  | zero =>
    intro x y acc
    exact ⟨[], by simp [backtrackSteps]⟩
  | succ st ih =>
    intro x y acc
    simp only [backtrackSteps]
    split
    · obtain ⟨t1, h1⟩ := diagBack_acc _ _ (x.toNat + 1) x y acc
      rw [h1, List.append_assoc]
      obtain ⟨t2, h2⟩ := ih _ _ _
      rw [h2, List.append_assoc]
      exact ⟨_, rfl⟩
    · obtain ⟨t1, h1⟩ := diagBack_acc _ _ (x.toNat + 1) x y acc
      rw [h1, List.append_assoc]
      obtain ⟨t2, h2⟩ := ih _ _ _
      rw [h2, List.append_assoc]
      exact ⟨_, rfl⟩

theorem backtrackSteps_nonequal (trace : List (Array Nat)) (total : Nat) :
    ∀ (step : Nat), 1 ≤ step → ∀ (x y : Int) (acc : List Edit),
      ∃ e ∈ (backtrackSteps trace total step x y acc).2.2, e.kind ≠ editEqual := by
  intro step hstep x y acc
  obtain ⟨st, rfl⟩ : ∃ st, step = st + 1 := ⟨step - 1, by omega⟩
  simp only [backtrackSteps]
  split
  · obtain ⟨t1, h1⟩ := diagBack_acc _ _ (x.toNat + 1) x y acc
    rw [h1, List.append_assoc]
    obtain ⟨t2, h2⟩ := backtrackSteps_acc trace total st _ _ _
    rw [h2]
    exact ⟨_, List.mem_append_left _ (List.mem_append_right _
      (List.mem_append_right _ (List.mem_cons_self _ _))), by simp⟩
  · obtain ⟨t1, h1⟩ := diagBack_acc _ _ (x.toNat + 1) x y acc
    rw [h1, List.append_assoc]
    obtain ⟨t2, h2⟩ := backtrackSteps_acc trace total st _ _ _
    rw [h2]
    exact ⟨_, List.mem_append_left _ (List.mem_append_right _
      (List.mem_append_right _ (List.mem_cons_self _ _))), by simp⟩

theorem backtrack_nonequal (trace : List (Array Nat)) (a b : List Str) (d total : Nat)
    (hd : 1 ≤ d) :
    ∃ e ∈ backtrack trace a b d total, e.kind ≠ editEqual := by
  unfold backtrack
  obtain ⟨e, hmem, hkind⟩ := backtrackSteps_nonequal trace total d hd
    (a.length : Int) (b.length : Int) []
  obtain ⟨t3, h3⟩ := diagRemaining_acc _ _ _
    (backtrackSteps trace total d (a.length : Int) (b.length : Int) []).2.2
  refine ⟨e, ?_, hkind⟩
  rw [List.mem_reverse, h3]
  exact List.mem_append_left _ hmem

theorem foldl_ne_nil_generic {α β : Type} (f : List α → β → List α) (p : β → Prop)
    (h1 : ∀ rs x, rs ≠ [] → f rs x ≠ [])
    (h2 : ∀ rs x, p x → f rs x ≠ []) :
    ∀ (l : List β) (rs : List α), (rs ≠ [] ∨ ∃ x ∈ l, p x) → l.foldl f rs ≠ [] := by
  intro l
  induction l with
  | nil =>
    intro rs h
    rcases h with h | ⟨x, hx, _⟩
    · exact h
    · cases hx
  | cons a t ih =>
    intro rs h
    simp only [List.foldl_cons]
    rcases h with h | ⟨x, hx, hp⟩
    · exact ih (f rs a) (Or.inl (h1 rs a h))
    · rcases List.mem_cons.mp hx with rfl | hx2
      · exact ih _ (Or.inl (h2 rs x hp))
      · by_cases hfa : f rs a = []
        · exact ih _ (Or.inr ⟨x, hx2, hp⟩)
        · exact ih _ (Or.inl hfa)

theorem mem_enumFrom_of_mem {α : Type} {e : α} :
    ∀ {l : List α}, e ∈ l → ∀ (n : Nat), ∃ i : Nat, (i, e) ∈ l.enumFrom n := by
  intro l
  induction l with
  | nil => intro h; cases h
  | cons a t ih =>
    intro h n
    rcases List.mem_cons.mp h with rfl | h2
    · exact ⟨n, List.mem_cons_self _ _⟩
    · obtain ⟨i, hi⟩ := ih h2 (n + 1)
      exact ⟨i, List.mem_cons_of_mem _ hi⟩

theorem findChangeRegions_ne_nil {edits : List Edit}
    (h : ∃ e ∈ edits, e.kind ≠ editEqual) : findChangeRegions edits ≠ [] := by
  obtain ⟨e, hmem, hkind⟩ := h
  obtain ⟨i, hi⟩ := mem_enumFrom_of_mem hmem 0
  unfold findChangeRegions
  apply foldl_ne_nil_generic _ (fun ei => ei.2.kind ≠ editEqual)
  · intro rs x hrs
    dsimp only
    split
    · exact hrs
    · split
      · simp
      · split
        · simp
        · simp
  · intro rs x hp
    dsimp only
    rw [if_neg hp]
    split
    · simp
    · split
      · simp
      · simp
  · exact Or.inr ⟨(i, e), hi, hkind⟩

theorem mergeRegions_ne_nil {regions : List Region} (h : regions ≠ []) :
    mergeRegions regions ≠ [] := by
  unfold mergeRegions
  apply foldl_ne_nil_generic _ (fun _ => True)
  · intro rs x hrs
    dsimp only
    split
    · simp
    · split
      · simp
      · simp
  · intro rs x _
    dsimp only
    split
    · simp
    · split
      · simp
      · simp
  · rcases regions with _ | ⟨r, rest⟩
    · exact absurd rfl h
    · exact Or.inr ⟨r, List.mem_cons_self _ _, trivial⟩

theorem buildHunks_ne_nil {edits : List Edit}
    (h : ∃ e ∈ edits, e.kind ≠ editEqual) : buildHunks edits ≠ [] := by
  obtain ⟨e, hmem, hkind⟩ := h
  unfold buildHunks
  rw [if_neg (List.ne_nil_of_mem hmem)]
  unfold regionsToHunks
  have hr := mergeRegions_ne_nil (findChangeRegions_ne_nil ⟨e, hmem, hkind⟩)
  intro hc
  rcases hm : mergeRegions (findChangeRegions edits) with _ | ⟨r, rest⟩
  · exact hr hm
  · rw [hm] at hc
    simp at hc

/-- The diff of two different texts is nonempty, and its edit script
contains a non-equal edit. -/
theorem unified_ne_of_ne (filename s1 s2 : Str) (h : s1 ≠ s2) :
    Unified filename s1 s2 ≠ []
    ∧ ∃ e ∈ myers (splitLinesDiff s1) (splitLinesDiff s2), e.kind ≠ editEqual := by
  have hlines : splitLinesDiff s1 ≠ splitLinesDiff s2 := fun hc => h (splitLinesDiff_inj hc)
  obtain ⟨d2, hd1, hd2, trace2, hmy⟩ := myers_success _ _ hlines
  have hedit := backtrack_nonequal trace2 (splitLinesDiff s1) (splitLinesDiff s2) d2
    ((splitLinesDiff s1).length + (splitLinesDiff s2).length) hd1
  rw [← hmy] at hedit
  refine ⟨?_, hedit⟩
  unfold Unified
  rw [if_neg h]
  have hhunks := buildHunks_ne_nil hedit
  rw [if_neg hhunks]
  intro hc
  rw [List.append_eq_nil, List.append_eq_nil, List.append_eq_nil,
    List.append_eq_nil, List.append_eq_nil, List.append_eq_nil] at hc
  exact absurd hc.1.1.1.1.1.1 (by decide)

/-- C4: the unified diff output is the empty string exactly when the
two input texts are equal.  Equal inputs short-circuit to the empty
string; different inputs yield different line lists (splitLines is
injective since concatenating its pieces restores the text), the myers
search then succeeds at some round d with 1 <= d <= n+m (round 0
succeeding would force the line lists equal), backtrack emits at least
one insert or delete edit, so the hunk list is nonempty and the output
starts with the --- header. -/
theorem unified_empty_iff_equal (filename oldText newText : Str) :
    Unified filename oldText newText = [] ↔ oldText = newText := by
  constructor
  · intro h
    by_contra hne
    exact (unified_ne_of_ne filename oldText newText hne).1 h
  · intro h
    unfold Unified
    rw [if_pos h]

/-- C5: amended non-triviality.  When the texts differ the diff is
nonempty and the edit script contains at least one delete or insert
edit; but the claim's stronger demand — a '-' line drawn from s1 AND a
'+' line drawn from s2 — is false, because a pure insertion produces
no delete edit at all (and symmetrically for deletions). -/
theorem diff_nonempty_has_change_edit (filename s1 s2 : Str) (h : s1 ≠ s2) :
    Unified filename s1 s2 ≠ []
    ∧ ∃ e ∈ myers (splitLinesDiff s1) (splitLinesDiff s2),
        e.kind = editDelete ∨ e.kind = editInsert := by
  obtain ⟨h1, e, hmem, hkind⟩ := unified_ne_of_ne filename s1 s2 h
  refine ⟨h1, e, hmem, ?_⟩
  rcases hek : e.kind with _ | _ | _
  · exact absurd hek hkind
  · exact Or.inr rfl
  · exact Or.inl rfl

theorem diff_nonempty_has_change_edit_witness :
    Unified (("f").toList) (("a\n").toList) (("b\n").toList) ≠ []
    ∧ ∃ e ∈ myers (splitLinesDiff (("a\n").toList)) (splitLinesDiff (("b\n").toList)),
        e.kind = editDelete ∨ e.kind = editInsert :=
  diff_nonempty_has_change_edit (("f").toList) (("a\n").toList) (("b\n").toList) (by decide)

end Makefmt
